import Mathlib

/-!
# Verification of the match-expression lowering core (`lower_match.rs`)

This file gives a shallow embedding of the match-lowering core of the Cairo
compiler (`crates/cairo-lang-lowering/src/lower/lower_match.rs`) and proves /
refutes the frozen claims about it.

Modelling conventions:
* Rust's pattern arena (`ctx.function_body.patterns`, indexed by `PatternId`)
  is flattened: patterns are represented directly as a recursive datatype.
* `usize` is modelled as `Nat`; `BigInt` literal values as `Int`;
  `num_traits::ToPrimitive::to_usize` as a bounds-checked conversion.
* `UnorderedHashMap` is modelled as an association list with distinct keys;
  the `Entry` API's occupied/vacant distinction becomes a lookup test, and
  a vacant insert appends.  Only lookup, insert-if-absent and length are used
  by the source, so this is faithful.
* Failure values (`LoweringFlowError::Failed(diag)`) carry the diagnostic that
  was reported at the failure site; a `panicked` value models Rust panics
  (out-of-bounds indexing, `unreachable!`).
* Externally provided services (`lower_expr`, `lower_single_pattern`,
  `lower_tail_expr`, block builders, the flag store) are abstracted: the model
  records which arm bodies get their tail expression lowered, which variables
  are allocated with which types, and which diagnostics are reported, which is
  exactly what the claims are about.
-/

namespace LowerMatch

/-- A (post-generic-resolution) type.  Only the structure relevant to the
lowering core is kept: a base type identifier and snapshot wrappers. -/
inductive Ty where
  | base (id : Nat)
  | snap (t : Ty)
deriving DecidableEq, Repr

/-- `semantic::types::wrap_in_snapshots`: wrap a type in `n` snapshot layers. -/
def wrap_in_snapshots (t : Ty) : Nat → Ty
  | 0 => t
  | n + 1 => Ty.snap (wrap_in_snapshots t n)

/-- A concrete enum variant: its enum id, its name (used in diagnostics), its
index inside the enum and its payload type. -/
structure ConcreteVariant where
  concrete_enum_id : Nat
  name : String
  idx : Nat
  ty : Ty
deriving DecidableEq, Repr

/-- A pattern appearing as a field of a tuple pattern, as inspected by the
lowering core: an enum-variant pattern (with or without an inner payload
pattern), an otherwise pattern, or anything else (`other`), which both
`insert_tuple_path_patterns` and `lower_tuple_match_arm` handle through a
single catch-all branch. -/
inductive FieldPattern where
  | enumVariant (variant : ConcreteVariant) (hasInner : Bool)
  | otherwise
  | other
deriving DecidableEq, Repr

/-- `semantic::Pattern`, restricted to the shapes the lowering core inspects.
`other` stands for every remaining pattern kind (struct, fixed-size-array,
missing, ...), which the core uniformly rejects. -/
inductive Pattern where
  | literal (value : Int)
  | otherwise
  | enumVariant (variant : ConcreteVariant) (hasInner : Bool)
  | tuple (fields : List FieldPattern)
  | other
deriving DecidableEq, Repr

/-- `semantic::MatchArm`: the or-pattern list and the body expression id. -/
structure MatchArm where
  patterns : List Pattern
  expression : Nat
deriving DecidableEq, Repr

/-- The arm and pattern indices of a pattern in a match arm with an or list
(struct `PatternPath` in the source). -/
structure PatternPath where
  arm_index : Nat
  pattern_index : Nat
deriving DecidableEq, Repr

/-- `ExtractedEnumDetails`: per matched axis, the concrete enum id, its
concrete variants in definition order, and the peeled snapshot count. -/
structure ExtractedEnumDetails where
  concrete_enum_id : Nat
  concrete_variants : List ConcreteVariant
  n_snapshots : Nat
deriving DecidableEq, Repr

/-- The diagnostic kinds emitted by the lowering core
(`LoweringDiagnosticKind`).  `unreachableMatchArm` keeps the source location
of the reported pattern (arm index, pattern index) because claims speak about
the order of those reports; `missingMatchArm` keeps its descriptor string.
The remaining kinds are location-free in the model. -/
inductive Diag where
  | unsupportedMatchedType
  | unsupportedMatchedValueTuple
  | unsupportedMatchArmNotAVariant
  | unsupportedMatchArmNotATuple
  | unsupportedMatchArmNotALiteral
  | unsupportedMatchArmNonSequential
  | unreachableMatchArm (armIdx patIdx : Nat)
  | missingMatchArm (descriptor : String)
  | nonExhaustiveMatchFelt252
deriving DecidableEq, Repr

/-- A failed lowering: either a reported diagnostic
(`LoweringFlowError::Failed`) or a Rust panic (out-of-bounds index /
`unreachable!`). -/
inductive Fail where
  | diag (d : Diag)
  | panicked
deriving DecidableEq, Repr

/-- Decidable equality of `Except` results (both payloads decidable). -/
instance instDecEqExcept {ε α : Type} [DecidableEq ε] [DecidableEq α] :
    DecidableEq (Except ε α) := fun x y =>
  match x, y with
  | .ok a, .ok b =>
    if h : a = b then .isTrue (by rw [h]) else .isFalse (by simp [h])
  | .error e, .error f =>
    if h : e = f then .isTrue (by rw [h]) else .isFalse (by simp [h])
  | .ok _, .error _ => .isFalse (by simp)
  | .error _, .ok _ => .isFalse (by simp)

/-- Association-list lookup with decidable key equality (models
`UnorderedHashMap` lookup; keys are kept distinct by construction). -/
def alookup {α β : Type} [DecidableEq α] : List (α × β) → α → Option β
  | [], _ => none
  | (k, v) :: rest, key => if k = key then some v else alookup rest key

/-- `Option::or`: the first option if present, else the second (used for the
wildcard fallback `variant_map.get(v).or(otherwise_variant.as_ref())`). -/
def optionOr {α : Type} : Option α → Option α → Option α
  | some a, _ => some a
  | none, b => b

end LowerMatch

namespace LowerMatch

/-! ## The felt252 match lowering (`lower_expr_match_felt252`) -/

/-- The input fed to a `felt252_is_zero` test in the cascade lowering:
either the match input itself (literal `0`) or the result of the emitted
`felt252_sub(match_input, literal)` statement. -/
inductive TestInput where
  | matchInput
  | subOf (lit : Int)
deriving DecidableEq, Repr

/-- The shape of the CFG emitted for a felt252 match.
* `test inp mainArm els`: a two-arm extern `Match` on `felt252_is_zero`
  applied to `inp`; the zero branch is a leaf of arm `mainArm`, the nonzero
  branch (which binds a fresh `NonZero<felt252>` variable) continues as `els`.
* `wildLeaf a`: the final nonzero branch, a leaf of arm `a`.
* `jumpTable maxB tableArms noneArm`: an extern `Match` on
  `downcast : felt252 -> Option<BoundedInt<0, maxB>>`; the `Some` branch holds
  an inner `MatchValue` whose arm for index `i` is a leaf of arm
  `tableArms[i]`, and the `None` branch is a leaf of arm `noneArm`. -/
inductive FeltCFG where
  | test (inp : TestInput) (mainArm : Nat) (els : FeltCFG)
  | wildLeaf (armIdx : Nat)
  | jumpTable (maxB : Nat) (tableArms : List Nat) (noneArm : Nat)
deriving DecidableEq, Repr

/-- `num_traits::ToPrimitive::to_usize` on a big integer (64-bit `usize`). -/
def toUsize (v : Int) : Option Nat :=
  if 0 ≤ v ∧ v ≤ (2 ^ 64 - 1 : Int) then some v.toNat else none

/-- The state threaded through the pre-validation loop of
`lower_expr_match_felt252`: the `literals_to_arm_map`, the `otherwise_exist`
flag and the running `max`. -/
structure FeltScan where
  map : List (Nat × Nat)
  otherwiseExist : Bool
  maxLit : Nat
deriving DecidableEq, Repr

/-- The `match pattern { ... }` of the pre-validation loop body of
`lower_expr_match_felt252`: a literal must convert with `to_usize`
(else `UnsupportedMatchArmNonSequential` at the match expression), must be
fresh in `literals_to_arm_map` (else `UnreachableMatchArm` at the pattern),
is inserted for the current arm and bumps the running `max`; an otherwise
pattern sets `otherwise_exist`; anything else is
`UnsupportedMatchArmNotALiteral`. -/
def feltScanStep (armIdx patIdx : Nat) (st : FeltScan) :
    Pattern → Except Fail FeltScan
  | .literal v =>
    match toUsize v with
    | none => .error (.diag .unsupportedMatchArmNonSequential)
    | some lit =>
      match alookup st.map lit with
      | some _ => .error (.diag (.unreachableMatchArm armIdx patIdx))
      | none =>
        let st' : FeltScan := { st with map := st.map ++ [(lit, armIdx)] }
        .ok (if st'.maxLit < lit then { st' with maxLit := lit } else st')
  | .otherwise => .ok { st with otherwiseExist := true }
  | _ => .error (.diag .unsupportedMatchArmNotALiteral)

/-- One pass of the inner pre-validation loop body of
`lower_expr_match_felt252` over the patterns of arm `armIdx`, starting at
pattern index `patIdx` (the indices only feed diagnostic locations): any
pattern strictly after the wildcard is `UnreachableMatchArm` and fatal. -/
def feltScanPatterns (armIdx : Nat) : Nat → List Pattern → FeltScan →
    Except Fail FeltScan
  | _, [], st => .ok st
  | patIdx, p :: rest, st =>
    if st.otherwiseExist then
      .error (.diag (.unreachableMatchArm armIdx patIdx))
    else
      match feltScanStep armIdx patIdx st p with
      | .error f => .error f
      | .ok st' => feltScanPatterns armIdx (patIdx + 1) rest st'

/-- The outer pre-validation loop of `lower_expr_match_felt252` over the arms,
starting at arm index `armIdx`. -/
def feltScanArms : Nat → List MatchArm → FeltScan → Except Fail FeltScan
  | _, [], st => .ok st
  | armIdx, arm :: rest, st =>
    match feltScanPatterns armIdx 0 arm.patterns st with
    | .error f => .error f
    | .ok st' => feltScanArms (armIdx + 1) rest st'

/-- `lower_expr_felt252_arm`: the recursive cascade emitter.  `nArms` is the
total arm count (`expr.arms.len()`), `armIdx` the current arm index, `cur`
the patterns of the current arm not yet processed, `rem` the pattern lists of
the remaining arms.  The guard `armIdx + 2 = nArms` mirrors the source's
`arm_index == expr.arms.len() - 2` (no `usize` wrap can occur on the inputs
reached from `lower_expr_match_felt252`, where `nArms ≥ 2` whenever the guard
is evaluated).  Falling off the end of the arm list models the source's
out-of-bounds `expr.arms[arm_index]` panic. -/
def felt252CascadeGo (nArms : Nat) : Nat → List Pattern → List (List Pattern) →
    Except Fail FeltCFG
  | _, [], [] => .error .panicked
  | armIdx, [], next :: rest => felt252CascadeGo nArms (armIdx + 1) next rest
  | armIdx, p :: curRest, rem =>
    match p with
    | .literal v =>
      let inp := if v = 0 then TestInput.matchInput else TestInput.subOf v
      if curRest = [] ∧ armIdx + 2 = nArms then
        .ok (.test inp armIdx (.wildLeaf (armIdx + 1)))
      else
        match felt252CascadeGo nArms armIdx curRest rem with
        | .ok els => .ok (.test inp armIdx els)
        | .error f => .error f
    | _ => .error (.diag .unsupportedMatchArmNotALiteral)
  termination_by armIdx cur rem => (rem.length, cur.length)

/-- The `literals_to_arm_map[&index]` lookups of `lower_expr_match_index_enum`
for the index values `idxs`, in order; an absent key models the source's
indexing panic. -/
def lookupAll (m : List (Nat × Nat)) : List Nat → Except Fail (List Nat)
  | [] => .ok []
  | i :: rest =>
    match alookup m i with
    | none => .error .panicked
    | some a =>
      match lookupAll m rest with
      | .ok tl => .ok (a :: tl)
      | .error f => .error f

/-- The jump-table emitter (`lower_expr_match_index_enum` plus the surrounding
downcast match of `lower_expr_match_felt252`).  `lastArm` is
`expr.arms.len() - 1`, the arm registered for the `None` branch. -/
def buildJumpTable (st : FeltScan) (lastArm : Nat) : Except Fail FeltCFG :=
  match lookupAll st.map (List.range st.map.length) with
  | .ok tbl => .ok (.jumpTable st.maxLit tbl lastArm)
  | .error f => .error f

/-- `lower_expr_match_felt252`: pre-validation (empty-arm check, the scan
loop, the `otherwise_exist` check and the contiguity check
`max + 1 == literals_to_arm_map.len()`), then strategy selection against the
`numeric_match_optimization_min_arms_threshold` flag value `threshold`:
`max ≤ threshold` emits the cascade, otherwise the jump table. -/
def lower_expr_match_felt252 (threshold : Nat) (arms : List MatchArm) :
    Except Fail FeltCFG :=
  match arms with
  | [] => .error (.diag .nonExhaustiveMatchFelt252)
  | a0 :: rest =>
    match feltScanArms 0 (a0 :: rest) ⟨[], false, 0⟩ with
    | .error f => .error f
    | .ok st =>
      if !st.otherwiseExist then .error (.diag .nonExhaustiveMatchFelt252)
      else if st.maxLit + 1 ≠ st.map.length then
        .error (.diag .unsupportedMatchArmNonSequential)
      else if st.maxLit ≤ threshold then
        felt252CascadeGo (a0 :: rest).length 0 a0.patterns (rest.map (·.patterns))
      else
        buildJumpTable st ((a0 :: rest).length - 1)

/-- Reference shape of a cascade: given the `(literal, arm index)` pairs in
encounter order and the index of the wildcard arm, the expected chain of
`is_zero` tests (spec §4.C.3): literal `0` tests the input itself, a nonzero
literal tests the emitted subtraction's result. -/
def cascadeSpec : List (Int × Nat) → Nat → FeltCFG
  | [], w => .wildLeaf w
  | (v, a) :: rest, w =>
      .test (if v = 0 then TestInput.matchInput else TestInput.subOf v) a
        (cascadeSpec rest w)

/-- The literal values of a pattern list, in order. -/
def armLiterals (pats : List Pattern) : List Int :=
  pats.filterMap (fun p => match p with | .literal v => some v | _ => none)

/-- The `(literal, arm index)` pairs of a list of arms in encounter order,
starting at arm index `off`. -/
def encounterLitsFrom : Nat → List MatchArm → List (Int × Nat)
  | _, [] => []
  | i, a :: rest =>
      (armLiterals a.patterns).map (fun v => (v, i)) ++ encounterLitsFrom (i + 1) rest

/-- Whether a felt252 lowering result is a jump table. -/
def isJumpResult : Except Fail FeltCFG → Bool
  | .ok (.jumpTable _ _ _) => true
  | _ => false

/-! ## Wildcard discovery (`get_underscore_pattern_path`) -/

/-- `arm.patterns.iter().position(|p| matches!(p, Pattern::Otherwise(_)))`. -/
def firstOtherwiseIdx : List Pattern → Option Nat
  | [] => none
  | .otherwise :: _ => some 0
  | _ :: rest => (firstOtherwiseIdx rest).map (· + 1)

/-- The first arm containing an otherwise pattern, together with the index of
its first otherwise pattern (the `find` part of `get_underscore_pattern_path`);
`i` is the index of the first arm of the list. -/
def findOtherwisePathFrom : Nat → List MatchArm → Option PatternPath
  | _, [] => none
  | i, a :: rest =>
    match firstOtherwiseIdx a.patterns with
    | some j => some ⟨i, j⟩
    | none => findOtherwisePathFrom (i + 1) rest

/-- The `UnreachableMatchArm` reports of the first loop of
`get_underscore_pattern_path`: one per pattern of each arm of the list, the
first arm having index `i`, in iteration order. -/
def unreachableDiagsFromArms : Nat → List MatchArm → List Diag
  | _, [] => []
  | i, a :: rest =>
    (List.range a.patterns.length).map (Diag.unreachableMatchArm i) ++
      unreachableDiagsFromArms (i + 1) rest

/-- `get_underscore_pattern_path`: locates the wildcard pattern and reports
`UnreachableMatchArm` — first (as in the source) for every pattern of every
arm after the wildcard's arm, then for the patterns after the wildcard inside
its own arm.  Returns the wildcard's path and the diagnostics in emission
order. -/
def get_underscore_pattern_path (arms : List MatchArm) :
    Option PatternPath × List Diag :=
  match findOtherwisePathFrom 0 arms with
  | none => (none, [])
  | some pp =>
    let laterArms : List Diag :=
      unreachableDiagsFromArms (pp.arm_index + 1) (arms.drop (pp.arm_index + 1))
    let sameArm : List Diag :=
      match arms.get? pp.arm_index with
      | some a =>
        (List.range' (pp.pattern_index + 1)
            (a.patterns.length - (pp.pattern_index + 1))).map
          (fun j => Diag.unreachableMatchArm pp.arm_index j)
      | none => []
    (some pp, laterArms ++ sameArm)

/-! ## The single-enum variant map (`get_variant_to_arm_map`) -/

/-- The pattern loop of `get_variant_to_arm_map` over one arm's patterns,
starting at pattern index `patIdx`.  The accumulated diagnostics are kept in
reporting order; a fatal report is both appended and returned as the error. -/
def variantMapPats (eid armIdx : Nat) :
    Nat → List Pattern → List Diag → List (ConcreteVariant × PatternPath) →
    List Diag × Except Diag (List (ConcreteVariant × PatternPath))
  | _, [], ds, m => (ds, .ok m)
  | patIdx, p :: rest, ds, m =>
    match p with
    | .otherwise => (ds, .ok m)
    | .enumVariant v _ =>
      if v.concrete_enum_id = eid then
        match alookup m v with
        | some _ =>
          variantMapPats eid armIdx (patIdx + 1) rest
            (ds ++ [.unreachableMatchArm armIdx patIdx]) m
        | none =>
          variantMapPats eid armIdx (patIdx + 1) rest ds
            (m ++ [(v, ⟨armIdx, patIdx⟩)])
      else
        (ds ++ [.unsupportedMatchArmNotAVariant], .error .unsupportedMatchArmNotAVariant)
    | _ => (ds ++ [.unsupportedMatchArmNotAVariant], .error .unsupportedMatchArmNotAVariant)

/-- The arm loop of `get_variant_to_arm_map`, starting at arm index
`armIdx`. -/
def variantMapArms (eid : Nat) :
    Nat → List MatchArm → List Diag → List (ConcreteVariant × PatternPath) →
    List Diag × Except Diag (List (ConcreteVariant × PatternPath))
  | _, [], ds, m => (ds, .ok m)
  | armIdx, a :: rest, ds, m =>
    match variantMapPats eid armIdx 0 a.patterns ds m with
    | (ds', .error d) => (ds', .error d)
    | (ds', .ok m') => variantMapArms eid (armIdx + 1) rest ds' m'

/-- `get_variant_to_arm_map`: builds the `variant -> PatternPath` map over the
given arms (the caller passes the arms before the wildcard arm). -/
def get_variant_to_arm_map (arms : List MatchArm) (eid : Nat) :
    List Diag × Except Diag (List (ConcreteVariant × PatternPath)) :=
  variantMapArms eid 0 arms [] []

/-- Reference description, following the spec's words (§4.B "Single enum" /
§8 "Arm-order stability"): the first pattern index `≥ j` inside one arm's
pattern list that is an enum-variant pattern for `v`, stopping at the arm's
first wildcard. -/
def armFirstCoverFrom (v : ConcreteVariant) : Nat → List Pattern → Option Nat
  | _, [] => none
  | j, p :: rest =>
    match p with
    | .otherwise => none
    | .enumVariant w _ => if w = v then some j else armFirstCoverFrom v (j + 1) rest
    | _ => armFirstCoverFrom v (j + 1) rest

/-- Reference description: the smallest `(arm index, pattern index)` (in
lexicographic source order, arms scanned from index `i`) whose pattern covers
variant `v`. -/
def firstCoverVariantFrom (v : ConcreteVariant) : Nat → List MatchArm → Option PatternPath
  | _, [] => none
  | i, a :: rest =>
    match armFirstCoverFrom v 0 a.patterns with
    | some j => some ⟨i, j⟩
    | none => firstCoverVariantFrom v (i + 1) rest

/-! ## The tuple decision map
(`insert_tuple_path_patterns`, `get_variants_to_arm_map_tuple`) -/

/-- Insert-if-absent on the tuple decision map (the `Entry` match at the
bottom of `insert_tuple_path_patterns`: occupied does nothing, vacant
inserts). -/
def tmapInsert (m : List (List ConcreteVariant × PatternPath))
    (path : List ConcreteVariant) (pp : PatternPath) :
    List (List ConcreteVariant × PatternPath) :=
  match alookup m path with
  | some _ => m
  | none => m ++ [(path, pp)]

mutual

/-- `insert_tuple_path_patterns`: inserts `pattern_path` into the decision map
for every variants list the (remaining) tuple field patterns can match.
`pats` are the field patterns not yet consumed, `ds` the axis details from the
current depth on (`extracted_enums_details[index..]`), `path` the variants
pushed so far.  Exhausting the axis details before the field patterns models
the source's out-of-bounds `extracted_enums_details[index]` panic. -/
def insert_tuple_path_patterns (pp : PatternPath) :
    List FieldPattern → List ExtractedEnumDetails → List ConcreteVariant →
    List (List ConcreteVariant × PatternPath) →
    Except Fail (List (List ConcreteVariant × PatternPath))
  | [], _, path, m => .ok (tmapInsert m path pp)
  | .enumVariant w _ :: ps, ds, path, m =>
    match ds with
    | [] => .error .panicked
    | d :: dRest =>
      if w.concrete_enum_id = d.concrete_enum_id then
        insert_tuple_path_patterns pp ps dRest (path ++ [w]) m
      else .error (.diag .unsupportedMatchArmNotAVariant)
  | .otherwise :: ps, ds, path, m =>
    match ds with
    | [] => .error .panicked
    | d :: dRest => insertOtherwiseFold pp ps dRest path d.concrete_variants m
  | .other :: _, _, _, _ => .error (.diag .unsupportedMatchArmNotAVariant)
  termination_by pats ds path m => (pats.length, 1, 0)

/-- The `try_for_each` of the `Otherwise` branch of
`insert_tuple_path_patterns`: iterate the axis's concrete variants in
definition order, pushing each onto the path in turn. -/
def insertOtherwiseFold (pp : PatternPath) (ps : List FieldPattern)
    (dRest : List ExtractedEnumDetails) (path : List ConcreteVariant) :
    List ConcreteVariant → List (List ConcreteVariant × PatternPath) →
    Except Fail (List (List ConcreteVariant × PatternPath))
  | [], m => .ok m
  | v :: vs, m =>
    match insert_tuple_path_patterns pp ps dRest (path ++ [v]) m with
    | .error f => .error f
    | .ok m' => insertOtherwiseFold pp ps dRest path vs m'
  termination_by vs m => (ps.length + 1, 0, vs.length)

end

/-- The pattern loop of `get_variants_to_arm_map_tuple` over one arm's
patterns: break at the arm's first otherwise, require a tuple pattern, expand
it into the map, and report `UnreachableMatchArm` when the map did not
grow. -/
def tupleMapPats (details : List ExtractedEnumDetails) (armIdx : Nat) :
    Nat → List Pattern → List Diag → List (List ConcreteVariant × PatternPath) →
    List Diag × Except Fail (List (List ConcreteVariant × PatternPath))
  | _, [], ds, m => (ds, .ok m)
  | patIdx, p :: rest, ds, m =>
    match p with
    | .otherwise => (ds, .ok m)
    | .tuple fields =>
      match insert_tuple_path_patterns ⟨armIdx, patIdx⟩ fields details [] m with
      | .error (.diag d) => (ds ++ [d], .error (.diag d))
      | .error .panicked => (ds, .error .panicked)
      | .ok m' =>
        let ds' := if m'.length = m.length
          then ds ++ [.unreachableMatchArm armIdx patIdx] else ds
        tupleMapPats details armIdx (patIdx + 1) rest ds' m'
    | _ => (ds ++ [.unsupportedMatchArmNotAVariant],
        .error (.diag .unsupportedMatchArmNotAVariant))

/-- The arm loop of `get_variants_to_arm_map_tuple`. -/
def tupleMapArms (details : List ExtractedEnumDetails) :
    Nat → List MatchArm → List Diag → List (List ConcreteVariant × PatternPath) →
    List Diag × Except Fail (List (List ConcreteVariant × PatternPath))
  | _, [], ds, m => (ds, .ok m)
  | armIdx, a :: rest, ds, m =>
    match tupleMapPats details armIdx 0 a.patterns ds m with
    | (ds', .error f) => (ds', .error f)
    | (ds', .ok m') => tupleMapArms details (armIdx + 1) rest ds' m'

/-- `get_variants_to_arm_map_tuple` (the caller passes the arms before the
wildcard arm). -/
def get_variants_to_arm_map_tuple (arms : List MatchArm)
    (details : List ExtractedEnumDetails) :
    List Diag × Except Fail (List (List ConcreteVariant × PatternPath)) :=
  tupleMapArms details 0 arms [] []

/-- Reference description (spec §4.B "Tuple decision tree"): whether a tuple
pattern's field list covers the variants list `key` — pointwise, an
enum-variant field covers exactly its own variant, an otherwise field covers
every concrete variant of its axis. -/
def fieldsCover : List FieldPattern → List ExtractedEnumDetails →
    List ConcreteVariant → Bool
  | [], _, [] => true
  | .enumVariant w _ :: ps, _ :: ds, v :: vs =>
    if w = v then fieldsCover ps ds vs else false
  | .otherwise :: ps, d :: ds, v :: vs =>
    if v ∈ d.concrete_variants then fieldsCover ps ds vs else false
  | _, _, _ => false

/-- Reference description: first pattern index `≥ j` in one arm whose tuple
pattern covers `key`, stopping at the arm's first wildcard. -/
def armTupleFirstCoverFrom (details : List ExtractedEnumDetails)
    (key : List ConcreteVariant) : Nat → List Pattern → Option Nat
  | _, [] => none
  | j, p :: rest =>
    match p with
    | .otherwise => none
    | .tuple fields =>
      if fieldsCover fields details key then some j
      else armTupleFirstCoverFrom details key (j + 1) rest
    | _ => armTupleFirstCoverFrom details key (j + 1) rest

/-- Reference description: the smallest `(arm index, pattern index)` in
lexicographic source order whose tuple pattern covers `key`. -/
def firstTupleCoverFrom (details : List ExtractedEnumDetails)
    (key : List ConcreteVariant) : Nat → List MatchArm → Option PatternPath
  | _, [] => none
  | i, a :: rest =>
    match armTupleFirstCoverFrom details key 0 a.patterns with
    | some j => some ⟨i, j⟩
    | none => firstTupleCoverFrom details key (i + 1) rest

/-! ## The per-variant leaf construction of `lower_expr_match`
(flat enum match, lines 615-675) -/

/-- The body of the per-variant closure of `lower_expr_match`: look the
variant up in the variant map, fall back to the wildcard path, else report
`MissingMatchArm("<variant name>")` and produce the error.  On a found path
the arm's pattern is fetched (an out-of-range path or a pattern kind other
than enum-variant/otherwise models the source's panics) and the leaf for that
arm is produced; the external `lower_single_pattern` call for an inner
payload pattern is opaque and captured inside the leaf, not here.  Returns
the diagnostic this variant reports (if any) and the closure's result: the
arm index of the produced `MatchLeafBuilder`. -/
def enumVariantLeaf (arms : List MatchArm)
    (vmap : List (ConcreteVariant × PatternPath)) (otherw : Option PatternPath)
    (v : ConcreteVariant) : Option Diag × Except Fail Nat :=
  match optionOr (alookup vmap v) otherw with
  | none => (some (.missingMatchArm v.name), .error (.diag (.missingMatchArm v.name)))
  | some pp =>
    match arms.get? pp.arm_index with
    | none => (none, .error .panicked)
    | some arm =>
      match arm.patterns.get? pp.pattern_index with
      | none => (none, .error .panicked)
      | some (.enumVariant _ _) => (none, .ok pp.arm_index)
      | some .otherwise => (none, .ok pp.arm_index)
      | some _ => (none, .error .panicked)

/-- `collect::<LoweringResult<Vec<_>>>` on an already-materialized vector of
results: the first error wins. -/
def sequenceExcept {α : Type} : List (Except Fail α) → Except Fail (List α)
  | [] => .ok []
  | .error f :: _ => .error f
  | .ok a :: rest =>
    match sequenceExcept rest with
    | .ok tl => .ok (a :: tl)
    | .error f => .error f

/-- The variant-leaf phase of `lower_expr_match` for a flat enum match: the
per-variant closure runs for every concrete variant (collected into a `Vec`,
so every missing variant reports its diagnostic), and only then is the vector
collected into a `LoweringResult`, so the first error is the one returned. -/
def lower_expr_match_enum_leaves (arms : List MatchArm)
    (variants : List ConcreteVariant)
    (vmap : List (ConcreteVariant × PatternPath)) (otherw : Option PatternPath) :
    List Diag × Except Fail (List Nat) :=
  let results := variants.map (enumVariantLeaf arms vmap otherw)
  (results.filterMap (·.1), sequenceExcept (results.map (·.2)))

/-! ## The tuple decision tree (`lower_full_match_tree`,
`lower_tuple_match_arm`) -/

/-- The state of the external lowering context observed by the decision-tree
walk: the variable allocator (`ctx.new_var`) and the produced leaf builders.
Each variable-allocation log entry records the axis (the current path length
at allocation time), the fresh variable id, the concrete variant it is bound
for, and the requested type. -/
structure TreeState where
  nextVar : Nat
  varLog : List (Nat × Nat × ConcreteVariant × Ty)
  leaves : List Nat
deriving Repr

/-- The nested `Match` tree produced for a tuple-of-enums match: one `node`
per axis (the concrete enum id and, per concrete variant in definition order,
the bound payload variable id and the sub-tree), and a `leaf` per decision
path recording the arm it was routed to. -/
inductive MatchTree where
  | node (enumId : Nat) (brs : List (ConcreteVariant × Nat × MatchTree))
  | leaf (armIndex : Nat)

/-- `lower_tuple_match_arm`: consult the decision map for the current path,
fall back to the wildcard, else report `MissingMatchArm("(v₁, v₂, …)")`.
The selected pattern must be a tuple pattern (else
`UnsupportedMatchArmNotATuple`); its fields are destructured (the external
`lower_single_pattern` calls are opaque; a field of an unexpected kind models
the source's `unreachable!`).  On success the leaf is registered for the
selected arm. -/
def lower_tuple_match_arm (arms : List MatchArm)
    (vmap : List (List ConcreteVariant × PatternPath)) (otherw : Option PatternPath)
    (path : List ConcreteVariant) (st : TreeState) :
    Except Fail (TreeState × Nat) :=
  match optionOr (alookup vmap path) otherw with
  | none => .error (.diag (.missingMatchArm
      ("(" ++ String.intercalate ", " (path.map (·.name)) ++ ")")))
  | some pp =>
    match arms.get? pp.arm_index with
    | none => .error .panicked
    | some arm =>
      match arm.patterns.get? pp.pattern_index with
      | none => .error .panicked
      | some (.tuple fields) =>
        if fields.all (fun fp => match fp with
            | .enumVariant _ _ => true | .otherwise => true | .other => false) then
          .ok ({ st with leaves := st.leaves ++ [pp.arm_index] }, pp.arm_index)
        else .error .panicked
      | some _ => .error (.diag .unsupportedMatchArmNotATuple)

mutual

/-- `lower_full_match_tree`: one recursion level per remaining axis
(`ds = extracted_enums_details[index..]` with `index = path.length`); an
empty `ds` models the source's out-of-bounds `extracted_enums_details[index]`
panic.  The per-variant sub-results are collected into a vector first (so the
context mutations — variable allocations, leaves, diagnostics — of every
variant happen) and only then collected into a result, mirroring the source's
double `collect`. -/
def lower_full_match_tree (arms : List MatchArm)
    (vmap : List (List ConcreteVariant × PatternPath)) (otherw : Option PatternPath)
    (nOuter : Nat) :
    List ExtractedEnumDetails → List ConcreteVariant → TreeState →
    TreeState × Except Fail MatchTree
  | [], _, st => (st, .error .panicked)
  | d :: dRest, path, st =>
    ((treeVariantsFold arms vmap otherw nOuter d dRest path d.concrete_variants st).1,
      match sequenceExcept
          (treeVariantsFold arms vmap otherw nOuter d dRest path
            d.concrete_variants st).2 with
      | .error f => .error f
      | .ok brs => .ok (.node d.concrete_enum_id brs))
  termination_by ds path st => (ds.length, 1, 0)

/-- The per-variant loop of `lower_full_match_tree` over the current axis's
concrete variants (`d` is the current axis's details, `dRest` the remaining
axes): allocate the payload variable with type
`wrap_in_snapshots(variant.ty, d.n_snapshots + n_snapshots_outer)`, push the
variant onto the path, and either handle the leaf (`dRest = []`, i.e.
`index + 1 == extracted_enums_details.len()`) or recurse. -/
def treeVariantsFold (arms : List MatchArm)
    (vmap : List (List ConcreteVariant × PatternPath)) (otherw : Option PatternPath)
    (nOuter : Nat) (d : ExtractedEnumDetails) (dRest : List ExtractedEnumDetails)
    (path : List ConcreteVariant) :
    List ConcreteVariant → TreeState →
    TreeState × List (Except Fail (ConcreteVariant × Nat × MatchTree))
  | [], st => (st, [])
  | v :: vs, st =>
    let varId := st.nextVar
    let st1 : TreeState :=
      { st with nextVar := st.nextVar + 1,
                varLog := st.varLog ++
                  [(path.length, varId, v,
                    wrap_in_snapshots v.ty (d.n_snapshots + nOuter))] }
    if dRest = [] then
      match lower_tuple_match_arm arms vmap otherw (path ++ [v]) st1 with
      | .ok (st2, armIdx) =>
        ((treeVariantsFold arms vmap otherw nOuter d dRest path vs st2).1,
          .ok (v, varId, .leaf armIdx) ::
            (treeVariantsFold arms vmap otherw nOuter d dRest path vs st2).2)
      | .error f =>
        ((treeVariantsFold arms vmap otherw nOuter d dRest path vs st1).1,
          .error f ::
            (treeVariantsFold arms vmap otherw nOuter d dRest path vs st1).2)
    else
      match lower_full_match_tree arms vmap otherw nOuter dRest (path ++ [v]) st1 with
      | (st2, .ok t) =>
        ((treeVariantsFold arms vmap otherw nOuter d dRest path vs st2).1,
          .ok (v, varId, t) ::
            (treeVariantsFold arms vmap otherw nOuter d dRest path vs st2).2)
      | (st2, .error f) =>
        ((treeVariantsFold arms vmap otherw nOuter d dRest path vs st2).1,
          .error f ::
            (treeVariantsFold arms vmap otherw nOuter d dRest path vs st2).2)
  termination_by vs st => (dRest.length + 1, 0, vs.length)

end

/-! ## The arm joiner (`group_match_arms`) -/

/-- The outcome of the inner-pattern lowering captured in a leaf builder's
`lowerin_result` field (`LoweringResult<()>`): success, a reported failure
(`LoweringFlowError::Failed`), or a control-flow divergence (the remaining
`LoweringFlowError` variants, produced by the external
`lower_single_pattern`). -/
inductive LeafResult where
  | ok
  | failed
  | diverge
deriving DecidableEq, Repr

/-- `MatchLeafBuilder`, as the joiner observes it: the arm index the leaf
belongs to and its captured inner-pattern lowering result (the source's
misspelled `lowerin_result`).  The block builder itself is opaque. -/
structure MatchLeafBuilder where
  arm_index : Nat
  lowerin_result : LeafResult
deriving DecidableEq, Repr

/-- Modelled from the spec: `lowering_flow_error_to_sealed_block` is not under
`src/` (it lives in the lowering context module).  Per spec §7, a failure
captured from the external `lower_single_pattern` is "not fatal to sibling
leaves: the joiner seals the affected leaf as an error-carrying block", while
per spec §5 "error propagation is eager: any call returning a failure aborts
the current lowering subtree"; accordingly a control-flow divergence seals
successfully and an already-reported failure propagates. -/
def sealLeaf : LeafResult → Except Unit Unit
  | .ok => .ok ()
  | .diverge => .ok ()
  | .failed => .error ()

/-- Insert into an ascending list of keys (used to accumulate the distinct
arm indices in ascending order, the group keys that
`sorted_by_key(arm_index)` followed by `group_by(arm_index)` produces). -/
def insertSorted (x : Nat) : List Nat → List Nat
  | [] => [x]
  | y :: ys => if x ≤ y then x :: y :: ys else y :: insertSorted x ys

/-- The distinct arm indices of the leaves in ascending order: the group keys
of `group_match_arms` (a stable sort by arm index followed by grouping of
consecutive equal keys yields one group per distinct arm index, in ascending
order, each holding its leaves in their original relative order). -/
def armGroupKeys (leaves : List MatchLeafBuilder) : List Nat :=
  leaves.foldl (fun ks l => if l.arm_index ∈ ks then ks else insertSorted l.arm_index ks) []

/-- Seal every child leaf of a multi-leaf group, in order; the first captured
failure aborts. -/
def sequenceSeal : List MatchLeafBuilder → Except Unit Unit
  | [] => .ok ()
  | l :: rest =>
    match sealLeaf l.lowerin_result with
    | .error e => .error e
    | .ok _ => sequenceSeal rest

/-- One group of `group_match_arms`, for one arm index, with leaves `g`
(`g.length ≥ 1`): a single-leaf group lowers the arm's tail expression
directly when the leaf's inner lowering succeeded, and otherwise seals the
leaf from its flow error (no tail lowering); a multi-leaf group seals every
child leaf (a captured failure aborts), joins them at a confluence block and
lowers the tail expression once.  Returns whether the external
`lower_tail_expr` was invoked for this group. -/
def processArmGroup (g : List MatchLeafBuilder) : Except Unit Bool :=
  match g with
  | [l] =>
    match l.lowerin_result with
    | .ok => .ok true
    | r => match sealLeaf r with
           | .ok _ => .ok false
           | .error e => .error e
  | _ =>
    match sequenceSeal g with
    | .ok _ => .ok true
    | .error e => .error e

/-- The per-group loop of `group_match_arms`, over the ascending distinct arm
indices; each group holds the leaves with that arm index in their original
relative order (stable sort). -/
def groupLoop (leaves : List MatchLeafBuilder) : List Nat → Except Unit (List Nat)
  | [] => .ok []
  | a :: rest =>
    match processArmGroup (leaves.filter (fun l => l.arm_index = a)) with
    | .error e => .error e
    | .ok tailRan =>
      match groupLoop leaves rest with
      | .error e => .error e
      | .ok out => .ok (if tailRan then a :: out else out)

/-- `group_match_arms`: sort the leaves by arm index (stably), group by arm
index, and process each group in ascending key order; processing stops at the
first failing group.  Returns, in processing order, the arm indices whose
tail expression the external `lower_tail_expr` was invoked on. -/
def group_match_arms (leaves : List MatchLeafBuilder) : Except Unit (List Nat) :=
  groupLoop leaves (armGroupKeys leaves)

/-- Whether a pattern is of a kind the per-variant leaf construction accepts
(enum-variant or otherwise; anything else hits the source's `unreachable!`). -/
def enumLeafPatternOk : Pattern → Bool
  | .enumVariant _ _ => true
  | .otherwise => true
  | _ => false

/-- Well-formedness of a variant's map entry with respect to the arm list:
either the variant is absent from the map, or its `PatternPath` points at an
existing pattern of an accepted kind.  (Entries produced by
`get_variant_to_arm_map` always satisfy this.) -/
def enumLeafWf (arms : List MatchArm) (vmap : List (ConcreteVariant × PatternPath))
    (v : ConcreteVariant) : Bool :=
  match alookup vmap v with
  | none => true
  | some pp =>
    match arms.get? pp.arm_index with
    | none => false
    | some arm =>
      match arm.patterns.get? pp.pattern_index with
      | none => false
      | some pat => enumLeafPatternOk pat

/-- Reference description (spec §4.D / §8 "One body per arm", amended): the
number of `lower_tail_expr` invocations the joiner performs for arm `a`:
one when the arm owns at least two leaves, one when it owns exactly one leaf
whose inner-pattern lowering succeeded, zero otherwise. -/
def tailInvocations (leaves : List MatchLeafBuilder) (a : Nat) : Nat :=
  match leaves.filter (fun l => l.arm_index = a) with
  | [] => 0
  | [l] => if l.lowerin_result = .ok then 1 else 0
  | _ => 1

/-! ## Concrete example inputs used by counterexamples and witnesses -/

/-- Arms `[0 ⇒ e0, 1 ⇒ e1, 2 ⇒ e2, _ ⇒ ew]` (spec scenarios 5 and 6). -/
def exArms012 : List MatchArm :=
  [⟨[.literal 0], 0⟩, ⟨[.literal 1], 1⟩, ⟨[.literal 2], 2⟩, ⟨[.otherwise], 3⟩]

/-- Arms `[0, 1, 2, 3, 4, 5, _]`: a felt252 match with maximum literal 5. -/
def exArms05 : List MatchArm :=
  [⟨[.literal 0], 0⟩, ⟨[.literal 1], 1⟩, ⟨[.literal 2], 2⟩, ⟨[.literal 3], 3⟩,
   ⟨[.literal 4], 4⟩, ⟨[.literal 5], 5⟩, ⟨[.otherwise], 6⟩]

/-- A single-arm felt252 match `[0 | _ ⇒ e]`: the wildcard shares the arm of
the literal, as an or-pattern. -/
def exArmsOrWild : List MatchArm := [⟨[.literal 0, .otherwise], 0⟩]

/-- The three literal arms `[0 ⇒ e0, 1 ⇒ e1, 2 ⇒ e2]` (the front of
`exArms012`). -/
def exFront012 : List MatchArm :=
  [⟨[.literal 0], 0⟩, ⟨[.literal 1], 1⟩, ⟨[.literal 2], 2⟩]

/-- A felt252 match with a duplicate literal: `[0 ⇒ e0, 0 ⇒ e1, _ ⇒ ew]`. -/
def exArmsDup : List MatchArm :=
  [⟨[.literal 0], 0⟩, ⟨[.literal 0], 1⟩, ⟨[.otherwise], 2⟩]

/-- A felt252 match with a literal after the wildcard arm:
`[_ ⇒ e0, 0 ⇒ e1]`. -/
def exArmsAfterWild : List MatchArm :=
  [⟨[.otherwise], 0⟩, ⟨[.literal 0], 1⟩]

/-- An arm whose pattern is a literal, fed to the enum variant mapper (which
rejects every non-variant pattern). -/
def exArmsNotVariant : List MatchArm := [⟨[.literal 5], 0⟩]

/-- Arms with a wildcard at position `(0,0)`, a trailing pattern in its own
arm, and a pattern in a subsequent arm. -/
def exArmsWildFirst : List MatchArm :=
  [⟨[.otherwise, .literal 1], 0⟩, ⟨[.literal 2], 1⟩]

/-- Variant `A` of the example enum `E` (enum id 7). -/
def exVA : ConcreteVariant := ⟨7, "A", 0, .base 0⟩
/-- Variant `B` of the example enum `E`. -/
def exVB : ConcreteVariant := ⟨7, "B", 1, .base 1⟩
/-- Variant `C` of the example enum `E`. -/
def exVC : ConcreteVariant := ⟨7, "C", 2, .base 2⟩

/-- Arms `[A | A ⇒ e0, B ⇒ e1]` on the example enum `E{A, B, C}`: the second
`A` pattern is shadowed by the first. -/
def exArmsAAB : List MatchArm :=
  [⟨[.enumVariant exVA false, .enumVariant exVA false], 0⟩,
   ⟨[.enumVariant exVB false], 1⟩]

/-- Arms `[A ⇒ e0, B ⇒ e1]` on the example enum `E{A, B, C}` (spec
scenario 3: variant `C` is missing and there is no wildcard). -/
def exArmsAB : List MatchArm :=
  [⟨[.enumVariant exVA false], 0⟩, ⟨[.enumVariant exVB false], 1⟩]

/-- The variant map for `exArmsAB`. -/
def exVmapAB : List (ConcreteVariant × PatternPath) :=
  [(exVA, ⟨0, 0⟩), (exVB, ⟨1, 0⟩)]

/-- Variant `A` of the example axis enum `E'` (enum id 1). -/
def exEA : ConcreteVariant := ⟨1, "A", 0, .base 10⟩
/-- Variant `B` of the example axis enum `E'`. -/
def exEB : ConcreteVariant := ⟨1, "B", 1, .base 11⟩
/-- Variant `X` of the example axis enum `F` (enum id 2). -/
def exFX : ConcreteVariant := ⟨2, "X", 0, .base 20⟩
/-- Variant `Y` of the example axis enum `F`. -/
def exFY : ConcreteVariant := ⟨2, "Y", 1, .base 21⟩
/-- Variant `Z` of the example axis enum `F`. -/
def exFZ : ConcreteVariant := ⟨2, "Z", 2, .base 22⟩
/-- Axis details for `E'{A, B}` with one inner snapshot. -/
def exDE : ExtractedEnumDetails := ⟨1, [exEA, exEB], 1⟩
/-- Axis details for `F{X, Y, Z}` with no inner snapshot. -/
def exDF : ExtractedEnumDetails := ⟨2, [exFX, exFY, exFZ], 0⟩

/-- Tuple-of-enums arms `[(A, _) ⇒ e0, (_, Y) ⇒ e1, (_, _) ⇒ e2]` (spec
scenario 4). -/
def exTupArms : List MatchArm :=
  [⟨[.tuple [.enumVariant exEA false, .otherwise]], 0⟩,
   ⟨[.tuple [.otherwise, .enumVariant exFY false]], 1⟩,
   ⟨[.tuple [.otherwise, .otherwise]], 2⟩]

/-- The decision map of `exTupArms` over axes `(E', F)` (spec scenario 4). -/
def exTupMap : List (List ConcreteVariant × PatternPath) :=
  [([exEA, exFX], ⟨0, 0⟩), ([exEA, exFY], ⟨0, 0⟩), ([exEA, exFZ], ⟨0, 0⟩),
   ([exEB, exFY], ⟨1, 0⟩), ([exEB, exFX], ⟨2, 0⟩), ([exEB, exFZ], ⟨2, 0⟩)]

/-- Leaves of a match where arm 0 owns a single leaf whose inner-pattern
lowering diverged and arm 1 owns a single successful leaf. -/
def exLeavesDiverge : List MatchLeafBuilder := [⟨0, .diverge⟩, ⟨1, .ok⟩]

end LowerMatch

namespace LowerMatch

/-! # Theorems

General lemmas about the association-list primitives, then per-claim
developments. -/

@[simp] theorem alookup_nil {α β : Type} [DecidableEq α] (key : α) :
    alookup ([] : List (α × β)) key = none := rfl

@[simp] theorem alookup_cons {α β : Type} [DecidableEq α] (k : α) (v : β)
    (rest : List (α × β)) (key : α) :
    alookup ((k, v) :: rest) key = if k = key then some v else alookup rest key := rfl

theorem alookup_append {α β : Type} [DecidableEq α] (m₁ m₂ : List (α × β)) (key : α) :
    alookup (m₁ ++ m₂) key =
      ((alookup m₁ key).orElse (fun _ => alookup m₂ key)) := by
  induction m₁ with
  | nil => simp
  | cons kv rest ih =>
    obtain ⟨k, v⟩ := kv
    by_cases hk : k = key <;> simp [hk, ih]

theorem alookup_eq_none_iff {α β : Type} [DecidableEq α] (m : List (α × β)) (key : α) :
    alookup m key = none ↔ key ∉ m.map Prod.fst := by
  induction m with
  | nil => simp
  | cons kv rest ih =>
    obtain ⟨k, v⟩ := kv
    simp only [alookup_cons, List.map_cons, List.mem_cons]
    by_cases hk : k = key
    · subst hk; simp
    · simp only [if_neg hk, ih]
      constructor
      · intro h hmem
        rcases hmem with h1 | h2
        · exact hk h1.symm
        · exact h h2
      · exact fun h hm => h (Or.inr hm)

theorem alookup_isSome_of_mem {α β : Type} [DecidableEq α] (m : List (α × β)) (key : α)
    (h : key ∈ m.map Prod.fst) : ∃ v, alookup m key = some v := by
  cases hl : alookup m key with
  | none => exact absurd ((alookup_eq_none_iff m key).mp hl) (not_not_intro h)
  | some v => exact ⟨v, rfl⟩

/-! ## Lemmas about the felt252 pre-validation scan -/

theorem feltScanArms_append (i : Nat) (xs ys : List MatchArm) (st : FeltScan) :
    feltScanArms i (xs ++ ys) st =
      match feltScanArms i xs st with
      | .error f => .error f
      | .ok st' => feltScanArms (i + xs.length) ys st' := by
  induction xs generalizing i st with
  | nil => rfl
  | cons a rest ih =>
    simp only [List.cons_append, feltScanArms, List.length_cons]
    cases feltScanPatterns i 0 a.patterns st with
    | error f => rfl
    | ok st1 =>
      dsimp only
      have h2 : i + 1 + rest.length = i + (rest.length + 1) := by omega
      rw [← h2]
      exact ih (i + 1) st1

/-- A successful scan of an arm list ending in a single-wildcard arm leaves
`otherwise_exist` set. -/
theorem feltScan_wildLast_otherwise (i : Nat) (xs : List MatchArm) (e : Nat)
    (st st' : FeltScan)
    (h : feltScanArms i (xs ++ [⟨[.otherwise], e⟩]) st = .ok st') :
    st'.otherwiseExist = true := by
  rw [feltScanArms_append] at h
  cases hxs : feltScanArms i xs st with
  | error f => rw [hxs] at h; exact absurd h (by simp)
  | ok st1 =>
    rw [hxs] at h
    simp only [feltScanArms, feltScanPatterns, feltScanStep] at h
    by_cases hoth : st1.otherwiseExist = true
    · rw [if_pos hoth] at h; exact absurd h (by simp)
    · rw [if_neg hoth] at h
      simp only [feltScanPatterns, feltScanArms] at h
      cases h
      rfl

/-- Invariants of one scan step: distinct literal keys, all bounded by the
running maximum. -/
theorem feltScanStep_inv (armIdx patIdx : Nat) (st st' : FeltScan) (p : Pattern)
    (h : feltScanStep armIdx patIdx st p = .ok st')
    (hnd : (st.map.map Prod.fst).Nodup)
    (hb : ∀ k ∈ st.map.map Prod.fst, k ≤ st.maxLit) :
    (st'.map.map Prod.fst).Nodup ∧ (∀ k ∈ st'.map.map Prod.fst, k ≤ st'.maxLit) := by
  cases p with
  | literal v =>
    simp only [feltScanStep] at h
    split at h
    · exact absurd h (by simp)
    next lit hus =>
      split at h
      · exact absurd h (by simp)
      next hlk =>
        cases h
        have hlitmem := (alookup_eq_none_iff st.map lit).mp hlk
        have hkeys : ((st.map ++ [(lit, armIdx)]).map Prod.fst).Nodup := by
          simp only [List.map_append, List.map_cons, List.map_nil]
          rw [List.nodup_append]
          exact ⟨hnd, by simp, by
            intro k hk hk'
            simp only [List.mem_singleton] at hk'
            subst hk'
            exact hlitmem hk⟩
        by_cases hc : st.maxLit < lit
        · rw [if_pos hc]
          refine ⟨hkeys, ?_⟩
          intro k hk
          dsimp only at hk ⊢
          simp only [List.map_append, List.map_cons, List.map_nil,
            List.mem_append, List.mem_singleton] at hk
          rcases hk with hk | hk
          · have := hb k hk; omega
          · omega
        · rw [if_neg hc]
          refine ⟨hkeys, ?_⟩
          intro k hk
          dsimp only at hk ⊢
          simp only [List.map_append, List.map_cons, List.map_nil,
            List.mem_append, List.mem_singleton] at hk
          rcases hk with hk | hk
          · exact hb k hk
          · omega
  | otherwise =>
    simp only [feltScanStep] at h
    cases h
    exact ⟨by simpa using hnd, by simpa using hb⟩
  | enumVariant v hi => exact absurd h (by simp [feltScanStep])
  | tuple fs => exact absurd h (by simp [feltScanStep])
  | other => exact absurd h (by simp [feltScanStep])

/-- Invariants of the inner scan loop over one arm's patterns. -/
theorem feltScanPatterns_inv (armIdx : Nat) (pats : List Pattern) :
    ∀ (patIdx : Nat) (st st' : FeltScan),
    feltScanPatterns armIdx patIdx pats st = .ok st' →
    (st.map.map Prod.fst).Nodup →
    (∀ k ∈ st.map.map Prod.fst, k ≤ st.maxLit) →
    ((st'.map.map Prod.fst).Nodup ∧
      (∀ k ∈ st'.map.map Prod.fst, k ≤ st'.maxLit)) := by
  induction pats with
  | nil =>
    intro patIdx st st' h hnd hb
    simp only [feltScanPatterns] at h
    cases h
    exact ⟨hnd, hb⟩
  | cons p rest ih =>
    intro patIdx st st' h hnd hb
    simp only [feltScanPatterns] at h
    by_cases hoth : st.otherwiseExist = true
    · rw [if_pos hoth] at h; exact absurd h (by simp)
    · rw [if_neg hoth] at h
      cases hstep : feltScanStep armIdx patIdx st p with
      | error f => rw [hstep] at h; exact absurd h (by simp)
      | ok st1 =>
        rw [hstep] at h
        obtain ⟨h1, h2⟩ := feltScanStep_inv armIdx patIdx st st1 p hstep hnd hb
        exact ih (patIdx + 1) st1 st' h h1 h2

/-- The scan invariants, lifted to the outer loop over arms. -/
theorem feltScanArms_inv (arms : List MatchArm) :
    ∀ (i : Nat) (st st' : FeltScan),
    feltScanArms i arms st = .ok st' →
    (st.map.map Prod.fst).Nodup →
    (∀ k ∈ st.map.map Prod.fst, k ≤ st.maxLit) →
    ((st'.map.map Prod.fst).Nodup ∧
      (∀ k ∈ st'.map.map Prod.fst, k ≤ st'.maxLit)) := by
  induction arms with
  | nil =>
    intro i st st' h hnd hb
    simp only [feltScanArms] at h
    cases h
    exact ⟨hnd, hb⟩
  | cons a rest ih =>
    intro i st st' h hnd hb
    simp only [feltScanArms] at h
    cases hp : feltScanPatterns i 0 a.patterns st with
    | error f => rw [hp] at h; exact absurd h (by simp)
    | ok st1 =>
      rw [hp] at h
      obtain ⟨h1, h2⟩ := feltScanPatterns_inv i a.patterns 0 st st1 hp hnd hb
      exact ih (i + 1) st1 st' h h1 h2

/-- Pigeonhole: a duplicate-free list of naturals below `n` of length `n`
contains every natural below `n`. -/
theorem mem_of_nodup_bound_length (l : List Nat) (n : Nat) (hnd : l.Nodup)
    (hb : ∀ x ∈ l, x < n) (hl : l.length = n) : ∀ i, i < n → i ∈ l := by
  intro i hi
  have hsub : l.toFinset ⊆ Finset.range n := by
    intro x hx
    simp only [List.mem_toFinset] at hx
    exact Finset.mem_range.mpr (hb x hx)
  have hcard : (Finset.range n).card ≤ l.toFinset.card := by
    rw [List.toFinset_card_of_nodup hnd, hl, Finset.card_range]
  have heq := Finset.eq_of_subset_of_card_le hsub hcard
  have : i ∈ l.toFinset := heq ▸ Finset.mem_range.mpr hi
  simpa using this

theorem lookupAll_ok (m : List (Nat × Nat)) (idxs : List Nat)
    (h : ∀ i ∈ idxs, i ∈ m.map Prod.fst) :
    lookupAll m idxs = .ok (idxs.map (fun i => (alookup m i).getD 0)) := by
  induction idxs with
  | nil => rfl
  | cons i rest ih =>
    obtain ⟨v, hv⟩ := alookup_isSome_of_mem m i (h i (by simp))
    simp only [lookupAll, hv, ih (fun j hj => h j (by simp [hj])), List.map_cons]
    rfl

/-- Strategy selection of `lower_expr_match_felt252`: once pre-validation
passes, `max ≤ threshold` selects the cascade emitter, otherwise the
jump-table emitter — each independent of the threshold. -/
theorem lower_felt252_strategy (T : Nat) (a0 : MatchArm) (rest : List MatchArm)
    (st : FeltScan)
    (hscan : feltScanArms 0 (a0 :: rest) ⟨[], false, 0⟩ = .ok st)
    (hoth : st.otherwiseExist = true)
    (hcont : st.maxLit + 1 = st.map.length) :
    lower_expr_match_felt252 T (a0 :: rest) =
      if st.maxLit ≤ T then
        felt252CascadeGo (a0 :: rest).length 0 a0.patterns (rest.map (·.patterns))
      else buildJumpTable st ((a0 :: rest).length - 1) := by
  simp only [lower_expr_match_felt252, hscan, hoth, hcont]
  simp

/-- The shape of the cascade emitted by `lower_expr_felt252_arm` on the arm
shapes reachable after pre-validation: all-literal nonempty arms followed by a
single-wildcard last arm.  The cascade tests each literal in encounter order
(the current arm's remaining patterns `cur`, then the remaining literal arms
`restFront`) and ends in the wildcard arm's leaf. -/
theorem felt252CascadeGo_shape (restFront : List MatchArm) :
    ∀ (cur : List Pattern) (armIdx : Nat),
    (∀ p ∈ cur, ∃ v, p = Pattern.literal v) →
    (∀ a ∈ restFront, a.patterns ≠ [] ∧ ∀ p ∈ a.patterns, ∃ v, p = Pattern.literal v) →
    ¬(cur = [] ∧ restFront = []) →
    felt252CascadeGo (armIdx + restFront.length + 2) armIdx cur
        (restFront.map (·.patterns) ++ [[.otherwise]]) =
      .ok (cascadeSpec
        ((armLiterals cur).map (fun v => (v, armIdx)) ++
          encounterLitsFrom (armIdx + 1) restFront)
        (armIdx + restFront.length + 1)) := by
  induction restFront with
  | nil =>
    intro cur armIdx hcur _ hne
    induction cur generalizing armIdx with
    | nil => exact absurd ⟨rfl, rfl⟩ hne
    | cons p curRest ihc =>
      obtain ⟨v, hv⟩ := hcur p (by simp)
      subst hv
      simp only [felt252CascadeGo, List.map_nil, List.nil_append]
      cases curRest with
      | nil =>
        rw [if_pos (by simp)]
        simp [cascadeSpec, armLiterals, encounterLitsFrom]
      | cons q qs =>
        rw [if_neg (by simp)]
        have h1 := ihc armIdx (fun r hr => hcur r (by simp [hr])) (by simp)
        simp only [List.map_nil, List.nil_append] at h1
        rw [h1]
        simp [cascadeSpec, armLiterals]
  | cons f fs ihf =>
    intro cur armIdx hcur hrest hne
    induction cur generalizing armIdx with
    | nil =>
      simp only [List.map_cons, List.cons_append, felt252CascadeGo]
      have hf := hrest f (by simp)
      have heq := ihf f.patterns (armIdx + 1) hf.2
        (fun a ha => hrest a (by simp [ha])) (fun hc => hf.1 hc.1)
      have e1 : armIdx + 1 + fs.length + 2 = armIdx + (f :: fs).length + 2 := by
        simp only [List.length_cons]; omega
      have e2 : armIdx + 1 + fs.length + 1 = armIdx + (f :: fs).length + 1 := by
        simp only [List.length_cons]; omega
      rw [e1, e2] at heq
      rw [heq]
      simp [armLiterals, encounterLitsFrom]
    | cons p curRest ihc =>
      obtain ⟨v, hv⟩ := hcur p (by simp)
      subst hv
      simp only [felt252CascadeGo]
      rw [if_neg (by
        rintro ⟨h1, h2⟩
        simp only [List.length_cons] at h2
        omega)]
      have h1 := ihc armIdx (fun r hr => hcur r (by simp [hr])) (by simp)
      rw [h1]
      simp [cascadeSpec, armLiterals]

/-! ## Error kinds of the enum variant mapper (for C4) -/

theorem variantMapPats_error_kind (eid armIdx : Nat) (pats : List Pattern) :
    ∀ (patIdx : Nat) (ds : List Diag) (m : List (ConcreteVariant × PatternPath))
      (ds' : List Diag) (d : Diag),
    variantMapPats eid armIdx patIdx pats ds m = (ds', .error d) →
    d = .unsupportedMatchArmNotAVariant := by
  induction pats with
  | nil =>
    intro patIdx ds m ds' d h
    simp only [variantMapPats, Prod.mk.injEq] at h
    exact absurd h.2 (by simp)
  | cons p rest ih =>
    intro patIdx ds m ds' d h
    cases p with
    | otherwise =>
      simp only [variantMapPats, Prod.mk.injEq] at h
      exact absurd h.2 (by simp)
    | enumVariant v hi =>
      simp only [variantMapPats] at h
      by_cases he : v.concrete_enum_id = eid
      · rw [if_pos he] at h
        cases hlk : alookup m v with
        | some q => rw [hlk] at h; exact ih (patIdx + 1) _ _ ds' d h
        | none => rw [hlk] at h; exact ih (patIdx + 1) _ _ ds' d h
      · rw [if_neg he, Prod.mk.injEq] at h
        obtain ⟨h1, h2⟩ := h
        cases h2
        rfl
    | literal k =>
      simp only [variantMapPats, Prod.mk.injEq] at h
      obtain ⟨h1, h2⟩ := h
      cases h2
      rfl
    | tuple fs =>
      simp only [variantMapPats, Prod.mk.injEq] at h
      obtain ⟨h1, h2⟩ := h
      cases h2
      rfl
    | other =>
      simp only [variantMapPats, Prod.mk.injEq] at h
      obtain ⟨h1, h2⟩ := h
      cases h2
      rfl

theorem variantMapArms_error_kind (eid : Nat) (arms : List MatchArm) :
    ∀ (armIdx : Nat) (ds : List Diag) (m : List (ConcreteVariant × PatternPath))
      (ds' : List Diag) (d : Diag),
    variantMapArms eid armIdx arms ds m = (ds', .error d) →
    d = .unsupportedMatchArmNotAVariant := by
  induction arms with
  | nil =>
    intro armIdx ds m ds' d h
    simp only [variantMapArms, Prod.mk.injEq] at h
    exact absurd h.2 (by simp)
  | cons a rest ih =>
    intro armIdx ds m ds' d h
    simp only [variantMapArms] at h
    cases hp : variantMapPats eid armIdx 0 a.patterns ds m with
    | mk ds1 r =>
      cases r with
      | error d1 =>
        rw [hp] at h
        simp only [Prod.mk.injEq] at h
        obtain ⟨h1, h2⟩ := h
        cases h2
        exact variantMapPats_error_kind eid armIdx a.patterns 0 ds m ds1 _ hp
      | ok m1 =>
        rw [hp] at h
        exact ih (armIdx + 1) ds1 m1 ds' d h

/-! ## The felt252 claims -/

/-- C10 (confirmed): a felt252 match whose arms are a single wildcard arm
(at least one arm, no literal patterns) fails: the contiguity check
`max + 1 = |literal set|` compares `1` with `0` and lowering returns
`UnsupportedMatchArmNonSequential`, even though a wildcard is present and the
arm list is non-empty — for every threshold value and arm body. -/
theorem claim_C10_wildcard_only_nonsequential (T e : Nat) :
    lower_expr_match_felt252 T [⟨[.otherwise], e⟩] =
      .error (.diag .unsupportedMatchArmNonSequential) := rfl

/-- C2 (counterexample): with the arms `[0 ⇒ e0, 1 ⇒ e1, 2 ⇒ e2, _ ⇒ ew]`
and the threshold set to 2, the claim says lowering produces a jump table;
but the source's strategy test is `max <= threshold`, i.e. `2 ≤ 2`, so it
produces the `is_zero` cascade instead. -/
theorem claim_C2_counterexample :
    isJumpResult (lower_expr_match_felt252 2 exArms012) = false ∧
    lower_expr_match_felt252 2 exArms012 =
      .ok (.test .matchInput 0
        (.test (.subOf 1) 1 (.test (.subOf 2) 2 (.wildLeaf 3)))) := by
  have h : lower_expr_match_felt252 2 exArms012 =
      .ok (.test .matchInput 0
        (.test (.subOf 1) 1 (.test (.subOf 2) 2 (.wildLeaf 3)))) := by
    simp [lower_expr_match_felt252, exArms012, feltScanArms, feltScanPatterns,
      feltScanStep, toUsize, felt252CascadeGo, -Prod.mk_zero_zero, -Prod.mk_one_one]
  exact ⟨by rw [h]; rfl, h⟩

/-- C2 (amended): for the arms `[0 ⇒ e0, 1 ⇒ e1, 2 ⇒ e2, _ ⇒ ew]` the jump
table is produced for thresholds strictly below the maximum literal 2 (for
example threshold 1): one outer `Match` on the downcast of the input to
`bounded_int[0, 2]`, whose `Some` branch enters an inner `MatchValue` with 3
arms routing indices 0, 1, 2 to the three literal arms and whose `None`
branch is the wildcard arm's leaf. -/
theorem claim_C2_amended :
    lower_expr_match_felt252 1 exArms012 = .ok (.jumpTable 2 [0, 1, 2] 3) := rfl

/-- C4 (counterexample): a felt252 match with a duplicate literal
(`[0 ⇒ e0, 0 ⇒ e1, _ ⇒ ew]`).  The only diagnostic emitted is
`UnreachableMatchArm` (at arm 1, pattern 0), yet lowering returns a failure
carrying exactly that diagnostic instead of proceeding with the earlier
pattern. -/
theorem claim_C4_counterexample :
    lower_expr_match_felt252 10 exArmsDup =
      .error (.diag (.unreachableMatchArm 1 0)) := rfl

/-- C4 (amended): `UnreachableMatchArm` is non-fatal in the enum
variant-to-arm mapper — `get_variant_to_arm_map` can only fail with
`UnsupportedMatchArmNotAVariant`, so a match whose only diagnostics are
unreachability warnings proceeds there — but in felt252 pre-validation a
literal after a wildcard (and likewise a duplicate literal, see the
counterexample) is fatal: lowering fails with `UnreachableMatchArm`. -/
theorem claim_C4_amended :
    (∀ (arms : List MatchArm) (eid : Nat) (ds : List Diag) (d : Diag),
      get_variant_to_arm_map arms eid = (ds, .error d) →
      d = .unsupportedMatchArmNotAVariant) ∧
    lower_expr_match_felt252 10 exArmsAfterWild =
      .error (.diag (.unreachableMatchArm 1 0)) := by
  constructor
  · intro arms eid ds d h
    exact variantMapArms_error_kind eid arms 0 [] [] ds d h
  · rfl

/-- Witness for C4: the enum mapper applied to a literal pattern fails with
`UnsupportedMatchArmNotAVariant`, and the amended theorem evaluates on it. -/
theorem claim_C4_witness :
    get_variant_to_arm_map exArmsNotVariant 7 =
      ([.unsupportedMatchArmNotAVariant], .error .unsupportedMatchArmNotAVariant) ∧
    Diag.unsupportedMatchArmNotAVariant = .unsupportedMatchArmNotAVariant :=
  ⟨rfl, claim_C4_amended.1 exArmsNotVariant 7 _ _ rfl⟩

/-- C3 (counterexample): for the arms `[0, 1, 2, 3, 4, 5, _]` (maximum
literal 5, unchanged), raising the threshold flag from 3 to 10 turns the
jump-table lowering into a cascade — the claim asserts this never happens. -/
theorem claim_C3_counterexample :
    (3 : Nat) ≤ 10 ∧
    isJumpResult (lower_expr_match_felt252 3 exArms05) = true ∧
    isJumpResult (lower_expr_match_felt252 10 exArms05) = false := by
  refine ⟨by omega, by rfl, ?_⟩
  simp [isJumpResult, lower_expr_match_felt252, exArms05, feltScanArms,
    feltScanPatterns, feltScanStep, toUsize, felt252CascadeGo,
    -Prod.mk_zero_zero, -Prod.mk_one_one]

/-- C3 (amended): for a fixed felt252 match passing pre-validation (so the
maximum literal `st.maxLit` is unchanged), the chosen lowering is invariant
under any threshold change that does not cross the maximum: raising the
threshold within `max ≤ T` keeps the cascade, keeping both thresholds below
`max` keeps the jump table, and any change of the lowering between thresholds
`T ≤ T'` implies the threshold crossed the maximum (`T < max ≤ T'`).
(The direction in the claim is reversed: it is raising the threshold across
the maximum that turns a jump table into a cascade, and lowering it across
the maximum that turns a cascade into a jump table.) -/
theorem claim_C3_amended (T T' : Nat) (a0 : MatchArm) (rest : List MatchArm)
    (st : FeltScan)
    (hscan : feltScanArms 0 (a0 :: rest) ⟨[], false, 0⟩ = .ok st)
    (hoth : st.otherwiseExist = true)
    (hcont : st.maxLit + 1 = st.map.length)
    (hTT : T ≤ T') :
    (st.maxLit ≤ T →
      lower_expr_match_felt252 T (a0 :: rest) =
        lower_expr_match_felt252 T' (a0 :: rest)) ∧
    (T' < st.maxLit →
      lower_expr_match_felt252 T (a0 :: rest) =
        lower_expr_match_felt252 T' (a0 :: rest)) ∧
    (lower_expr_match_felt252 T (a0 :: rest) ≠
        lower_expr_match_felt252 T' (a0 :: rest) →
      T < st.maxLit ∧ st.maxLit ≤ T') := by
  have hT := lower_felt252_strategy T a0 rest st hscan hoth hcont
  have hT' := lower_felt252_strategy T' a0 rest st hscan hoth hcont
  refine ⟨?_, ?_, ?_⟩
  · intro hle
    rw [hT, hT', if_pos hle, if_pos (le_trans hle hTT)]
  · intro hlt
    rw [hT, hT', if_neg (by omega), if_neg (by omega)]
  · intro hne
    by_contra hcon
    rcases le_or_lt st.maxLit T with hle | hgt
    · exact hne (by rw [hT, hT', if_pos hle, if_pos (le_trans hle hTT)])
    · rcases le_or_lt st.maxLit T' with hle' | hgt'
      · exact hcon ⟨hgt, hle'⟩
      · exact hne (by rw [hT, hT', if_neg (by omega), if_neg (by omega)])

/-- Witness for C3: the amended theorem applied to
`[0 ⇒ e0, 1 ⇒ e1, 2 ⇒ e2, _ ⇒ ew]` with thresholds 10 and 20. -/
theorem claim_C3_witness :
    feltScanArms 0
        [⟨[.literal 0], 0⟩, ⟨[.literal 1], 1⟩, ⟨[.literal 2], 2⟩, ⟨[.otherwise], 3⟩]
        ⟨[], false, 0⟩ = .ok ⟨[(0, 0), (1, 1), (2, 2)], true, 2⟩ ∧
    ((2 ≤ 10 →
      lower_expr_match_felt252 10
          [⟨[.literal 0], 0⟩, ⟨[.literal 1], 1⟩, ⟨[.literal 2], 2⟩, ⟨[.otherwise], 3⟩] =
        lower_expr_match_felt252 20
          [⟨[.literal 0], 0⟩, ⟨[.literal 1], 1⟩, ⟨[.literal 2], 2⟩, ⟨[.otherwise], 3⟩]) ∧
     (20 < 2 →
      lower_expr_match_felt252 10
          [⟨[.literal 0], 0⟩, ⟨[.literal 1], 1⟩, ⟨[.literal 2], 2⟩, ⟨[.otherwise], 3⟩] =
        lower_expr_match_felt252 20
          [⟨[.literal 0], 0⟩, ⟨[.literal 1], 1⟩, ⟨[.literal 2], 2⟩, ⟨[.otherwise], 3⟩]) ∧
     (lower_expr_match_felt252 10
          [⟨[.literal 0], 0⟩, ⟨[.literal 1], 1⟩, ⟨[.literal 2], 2⟩, ⟨[.otherwise], 3⟩] ≠
        lower_expr_match_felt252 20
          [⟨[.literal 0], 0⟩, ⟨[.literal 1], 1⟩, ⟨[.literal 2], 2⟩, ⟨[.otherwise], 3⟩] →
      10 < 2 ∧ 2 ≤ 20)) :=
  ⟨rfl, claim_C3_amended 10 20 ⟨[.literal 0], 0⟩
    [⟨[.literal 1], 1⟩, ⟨[.literal 2], 2⟩, ⟨[.otherwise], 3⟩]
    ⟨[(0, 0), (1, 1), (2, 2)], true, 2⟩ rfl rfl rfl (by omega)⟩

/-- C1 (counterexample): the single-arm felt252 match `[0 | _ ⇒ e]` passes
pre-validation (the scan succeeds with literal set `{0}` and the wildcard
seen; the contiguity check `0 + 1 = 1` passes) and has `max = 0 ≤ 10 = T`,
yet the emitted result is not the claimed cascade: the cascade emitter
reaches the wildcard pattern inside the literal arm and fails with
`UnsupportedMatchArmNotALiteral`. -/
theorem claim_C1_counterexample :
    feltScanArms 0 exArmsOrWild ⟨[], false, 0⟩ = .ok ⟨[(0, 0)], true, 0⟩ ∧
    lower_expr_match_felt252 10 exArmsOrWild =
      .error (.diag .unsupportedMatchArmNotALiteral) := by
  refine ⟨rfl, ?_⟩
  simp [lower_expr_match_felt252, exArmsOrWild, feltScanArms, feltScanPatterns,
    feltScanStep, toUsize, felt252CascadeGo, -Prod.mk_zero_zero, -Prod.mk_one_one]

/-- C1 (amended): for a felt252 match that passes pre-validation and whose
wildcard is the sole pattern of its final arm, every earlier arm being a
non-empty list of literal patterns, the strategy is chosen by comparing the
maximum literal `st.maxLit` with the threshold `T`:
* `max ≤ T` emits the `is_zero` cascade over the literals in encounter order
  (literal 0 tests the input itself, a nonzero literal tests the emitted
  subtraction's result — see `cascadeSpec`), ending in the wildcard arm's
  leaf;
* `max > T` emits the jump table on the downcast of the input to
  `bounded_int[0, max]` with a Some/None two-arm outer match, the `Some` arm
  routing index `i` to the arm registered for literal `i` and the `None` arm
  to the wildcard arm.
(The claim's unrestricted quantification fails — see the counterexample — 
because a wildcard sharing an arm with literals passes pre-validation but
derails the cascade emitter.) -/
theorem claim_C1_amended (T e : Nat) (front : List MatchArm) (st : FeltScan)
    (hfront : front ≠ [])
    (hlits : ∀ a ∈ front, a.patterns ≠ [] ∧
      ∀ p ∈ a.patterns, ∃ v, p = Pattern.literal v)
    (hscan : feltScanArms 0 (front ++ [⟨[.otherwise], e⟩]) ⟨[], false, 0⟩ = .ok st)
    (hcont : st.maxLit + 1 = st.map.length) :
    (st.maxLit ≤ T →
      lower_expr_match_felt252 T (front ++ [⟨[.otherwise], e⟩]) =
        .ok (cascadeSpec (encounterLitsFrom 0 front) front.length)) ∧
    (T < st.maxLit →
      lower_expr_match_felt252 T (front ++ [⟨[.otherwise], e⟩]) =
        .ok (.jumpTable st.maxLit
          ((List.range st.map.length).map (fun i => (alookup st.map i).getD 0))
          front.length)) := by
  obtain ⟨f0, fs, rfl⟩ : ∃ f0 fs, front = f0 :: fs := by
    cases front with
    | nil => exact absurd rfl hfront
    | cons f0 fs => exact ⟨f0, fs, rfl⟩
  have hoth : st.otherwiseExist = true :=
    feltScan_wildLast_otherwise 0 (f0 :: fs) e ⟨[], false, 0⟩ st hscan
  have hstrat := lower_felt252_strategy T f0
    (fs ++ [(⟨[.otherwise], e⟩ : MatchArm)]) st hscan hoth hcont
  have hlen : (f0 :: (fs ++ [(⟨[.otherwise], e⟩ : MatchArm)])).length =
      0 + fs.length + 2 := by
    simp only [List.length_cons, List.length_append, List.length_nil]
    omega
  constructor
  · intro hle
    have hgo := felt252CascadeGo_shape fs f0.patterns 0
      ((hlits f0 (by simp)).2)
      (fun a ha => hlits a (by simp [ha]))
      (fun hc => (hlits f0 (by simp)).1 hc.1)
    have hmapp : (fs ++ [(⟨[.otherwise], e⟩ : MatchArm)]).map (·.patterns) =
        fs.map (·.patterns) ++ [[Pattern.otherwise]] := by simp
    show lower_expr_match_felt252 T (f0 :: (fs ++ [(⟨[.otherwise], e⟩ : MatchArm)])) = _
    rw [hstrat, if_pos hle, hlen, hmapp, hgo]
    simp [encounterLitsFrom]
  · intro hgt
    obtain ⟨hnd, hb⟩ := feltScanArms_inv
      (f0 :: (fs ++ [(⟨[.otherwise], e⟩ : MatchArm)])) 0
      ⟨[], false, 0⟩ st hscan (by simp) (by simp)
    have hkeys_len : (st.map.map Prod.fst).length = st.map.length := by simp
    have hmem : ∀ i, i < st.map.length → i ∈ st.map.map Prod.fst := by
      refine mem_of_nodup_bound_length _ _ hnd ?_ hkeys_len
      intro x hx
      have := hb x hx
      omega
    have hla := lookupAll_ok st.map (List.range st.map.length)
      (fun i hi => hmem i (List.mem_range.mp hi))
    show lower_expr_match_felt252 T (f0 :: (fs ++ [(⟨[.otherwise], e⟩ : MatchArm)])) = _
    rw [hstrat, if_neg (by omega)]
    simp only [buildJumpTable, hla]
    simp

/-- Witness for C1: the amended theorem evaluated on
`[0 ⇒ e0, 1 ⇒ e1, 2 ⇒ e2, _ ⇒ ew]` with threshold 10 (the cascade side
applies since the maximum literal is 2). -/
theorem claim_C1_witness :
    feltScanArms 0 (exFront012 ++ [⟨[.otherwise], 3⟩]) ⟨[], false, 0⟩ =
      .ok ⟨[(0, 0), (1, 1), (2, 2)], true, 2⟩ ∧
    ((2 ≤ 10 →
      lower_expr_match_felt252 10 (exFront012 ++ [⟨[.otherwise], 3⟩]) =
        .ok (cascadeSpec (encounterLitsFrom 0 exFront012) exFront012.length)) ∧
     (10 < 2 →
      lower_expr_match_felt252 10 (exFront012 ++ [⟨[.otherwise], 3⟩]) =
        .ok (.jumpTable 2
          ((List.range ([(0, 0), (1, 1), (2, 2)] : List (Nat × Nat)).length).map
            (fun i => (alookup [(0, 0), (1, 1), (2, 2)] i).getD 0))
          exFront012.length))) :=
  ⟨rfl, claim_C1_amended 10 3 exFront012 ⟨[(0, 0), (1, 1), (2, 2)], true, 2⟩
    (by simp [exFront012])
    (by
      intro a ha
      fin_cases ha <;> exact ⟨by simp, by
        intro p hp
        simp only [List.mem_singleton] at hp
        subst hp
        exact ⟨_, rfl⟩⟩)
    rfl rfl⟩

/-! ## C9: diagnostic ordering of `get_underscore_pattern_path` -/

theorem unreachableDiagsFromArms_mem (arms : List MatchArm) :
    ∀ (i : Nat) (d : Diag), d ∈ unreachableDiagsFromArms i arms →
    ∃ a j, d = .unreachableMatchArm a j ∧ i ≤ a := by
  induction arms with
  | nil => intro i d h; simp [unreachableDiagsFromArms] at h
  | cons x rest ih =>
    intro i d h
    simp only [unreachableDiagsFromArms, List.mem_append, List.mem_map] at h
    rcases h with ⟨j, hj, rfl⟩ | h
    · exact ⟨i, j, rfl, Nat.le_refl i⟩
    · obtain ⟨a, j, rfl, ha⟩ := ih (i + 1) d h
      exact ⟨a, j, rfl, by omega⟩

/-- C9 (counterexample): for the arms `[_ | 1 ⇒ e0, 2 ⇒ e1]` (wildcard at
arm 0 pattern 0, a same-arm trailing pattern at (0,1) and a subsequent-arm
pattern at (1,0)), the `UnreachableMatchArm` diagnostics are emitted in the
order `[(1,0), (0,1)]`: the subsequent arm's diagnostic precedes the same-arm
one, not the source-traversal order the claim asserts. -/
theorem claim_C9_counterexample :
    (get_underscore_pattern_path exArmsWildFirst).2 =
      [.unreachableMatchArm 1 0, .unreachableMatchArm 0 1] ∧
    (get_underscore_pattern_path exArmsWildFirst).2 ≠
      [.unreachableMatchArm 0 1, .unreachableMatchArm 1 0] := by
  constructor
  · rfl
  · intro hcon
    rw [show (get_underscore_pattern_path exArmsWildFirst).2 =
      [Diag.unreachableMatchArm 1 0, Diag.unreachableMatchArm 0 1] from rfl] at hcon
    simp at hcon

/-- C9 (amended): when `get_underscore_pattern_path` finds the wildcard at
`pp`, its diagnostic list splits as `later ++ same`: first the
`UnreachableMatchArm` reports for patterns of arms strictly after the
wildcard's arm, then those for the trailing patterns of the wildcard's own
arm — i.e. the subsequent arms' diagnostics precede the same-arm ones,
reversing the source-traversal order asserted by the claim. -/
theorem claim_C9_amended (arms : List MatchArm) (pp : PatternPath) (ds : List Diag)
    (h : get_underscore_pattern_path arms = (some pp, ds)) :
    ∃ later same : List Diag,
      ds = later ++ same ∧
      (∀ d ∈ later, ∃ i j, d = .unreachableMatchArm i j ∧ pp.arm_index < i) ∧
      (∀ d ∈ same, ∃ j, d = .unreachableMatchArm pp.arm_index j ∧
        pp.pattern_index < j) := by
  cases hf : findOtherwisePathFrom 0 arms with
  | none =>
    rw [show get_underscore_pattern_path arms = (none, []) from by
      simp [get_underscore_pattern_path, hf]] at h
    exact absurd h (by simp)
  | some pp' =>
    cases hg : arms[pp'.arm_index]? with
    | none =>
      rw [show get_underscore_pattern_path arms =
        (some pp', unreachableDiagsFromArms (pp'.arm_index + 1)
          (arms.drop (pp'.arm_index + 1)) ++ []) from by
        simp [get_underscore_pattern_path, hf, hg]] at h
      simp only [Prod.mk.injEq, Option.some.injEq] at h
      obtain ⟨rfl, rfl⟩ := h
      refine ⟨_, [], rfl, ?_, by simp⟩
      intro d hd
      obtain ⟨a, j, rfl, ha⟩ := unreachableDiagsFromArms_mem _ _ d hd
      exact ⟨a, j, rfl, by omega⟩
    | some a =>
      rw [show get_underscore_pattern_path arms =
        (some pp', unreachableDiagsFromArms (pp'.arm_index + 1)
            (arms.drop (pp'.arm_index + 1)) ++
          (List.range' (pp'.pattern_index + 1)
              (a.patterns.length - (pp'.pattern_index + 1))).map
            (fun j => Diag.unreachableMatchArm pp'.arm_index j)) from by
        simp [get_underscore_pattern_path, hf, hg]] at h
      simp only [Prod.mk.injEq, Option.some.injEq] at h
      obtain ⟨rfl, rfl⟩ := h
      refine ⟨_, _, rfl, ?_, ?_⟩
      · intro d hd
        obtain ⟨a', j, rfl, ha⟩ := unreachableDiagsFromArms_mem _ _ d hd
        exact ⟨a', j, rfl, by omega⟩
      · intro d hd
        simp only [List.mem_map] at hd
        obtain ⟨j, hj, rfl⟩ := hd
        have hr := List.mem_range'_1.mp hj
        exact ⟨j, rfl, by omega⟩

/-- Witness for C9: the amended theorem evaluated on `exArmsWildFirst`. -/
theorem claim_C9_witness :
    get_underscore_pattern_path exArmsWildFirst =
      (some ⟨0, 0⟩, [.unreachableMatchArm 1 0, .unreachableMatchArm 0 1]) ∧
    (∃ later same : List Diag,
      [Diag.unreachableMatchArm 1 0, Diag.unreachableMatchArm 0 1] =
        later ++ same ∧
      (∀ d ∈ later, ∃ i j, d = Diag.unreachableMatchArm i j ∧ 0 < i) ∧
      (∀ d ∈ same, ∃ j, d = Diag.unreachableMatchArm 0 j ∧ 0 < j)) :=
  ⟨rfl, claim_C9_amended exArmsWildFirst ⟨0, 0⟩
    [Diag.unreachableMatchArm 1 0, Diag.unreachableMatchArm 0 1] rfl⟩

/-! ## C6: one tail-expression lowering per arm group -/

theorem insertSorted_mem (y : Nat) (l : List Nat) (x : Nat) :
    x ∈ insertSorted y l ↔ x = y ∨ x ∈ l := by
  induction l with
  | nil => simp [insertSorted]
  | cons z zs ih =>
    simp only [insertSorted]
    split
    · simp [List.mem_cons]
    · simp only [List.mem_cons, ih]
      tauto

theorem insertSorted_nodup (y : Nat) (l : List Nat) (hy : y ∉ l) (hl : l.Nodup) :
    (insertSorted y l).Nodup := by
  induction l with
  | nil => simp [insertSorted]
  | cons z zs ih =>
    simp only [insertSorted]
    split
    · exact List.nodup_cons.mpr ⟨hy, hl⟩
    · rw [List.nodup_cons] at hl
      rw [List.nodup_cons]
      refine ⟨?_, ih (fun hm => hy (by simp [hm])) hl.2⟩
      intro hz
      rw [insertSorted_mem] at hz
      rcases hz with hz | hz
      · exact hy (by simp [← hz])
      · exact hl.1 hz

theorem armGroupKeys_go (leaves : List MatchLeafBuilder) :
    ∀ ks : List Nat, ks.Nodup →
    (leaves.foldl
        (fun ks l => if l.arm_index ∈ ks then ks else insertSorted l.arm_index ks)
        ks).Nodup ∧
      (∀ a, a ∈ leaves.foldl
          (fun ks l => if l.arm_index ∈ ks then ks else insertSorted l.arm_index ks)
          ks ↔ (a ∈ ks ∨ ∃ l ∈ leaves, l.arm_index = a)) := by
  induction leaves with
  | nil => intro ks hks; simpa using hks
  | cons x rest ih =>
    intro ks hks
    simp only [List.foldl_cons]
    by_cases hx : x.arm_index ∈ ks
    · rw [if_pos hx]
      obtain ⟨h1, h2⟩ := ih ks hks
      refine ⟨h1, ?_⟩
      intro a
      rw [h2 a]
      constructor
      · rintro (ha | ha)
        · exact Or.inl ha
        · exact Or.inr ⟨ha.choose, by simp [ha.choose_spec.1], ha.choose_spec.2⟩
      · rintro (ha | ⟨l, hl, hla⟩)
        · exact Or.inl ha
        · rcases List.mem_cons.mp hl with rfl | hl
          · exact Or.inl (hla ▸ hx)
          · exact Or.inr ⟨l, hl, hla⟩
    · rw [if_neg hx]
      obtain ⟨h1, h2⟩ := ih (insertSorted x.arm_index ks)
        (insertSorted_nodup _ _ hx hks)
      refine ⟨h1, ?_⟩
      intro a
      rw [h2 a, insertSorted_mem]
      constructor
      · rintro ((rfl | ha) | ha)
        · exact Or.inr ⟨x, by simp, rfl⟩
        · exact Or.inl ha
        · exact Or.inr ⟨ha.choose, by simp [ha.choose_spec.1], ha.choose_spec.2⟩
      · rintro (ha | ⟨l, hl, hla⟩)
        · exact Or.inl (Or.inr ha)
        · rcases List.mem_cons.mp hl with rfl | hl
          · exact Or.inl (Or.inl hla.symm)
          · exact Or.inr ⟨l, hl, hla⟩

theorem armGroupKeys_nodup (leaves : List MatchLeafBuilder) :
    (armGroupKeys leaves).Nodup :=
  (armGroupKeys_go leaves [] (by simp)).1

theorem armGroupKeys_mem (leaves : List MatchLeafBuilder) (a : Nat) :
    a ∈ armGroupKeys leaves ↔ ∃ l ∈ leaves, l.arm_index = a := by
  rw [armGroupKeys, (armGroupKeys_go leaves [] (by simp)).2 a]
  simp

theorem groupLoop_ok_each (leaves : List MatchLeafBuilder) :
    ∀ (keys : List Nat) (out : List Nat),
    groupLoop leaves keys = .ok out →
    ∀ k ∈ keys, ∃ b,
      processArmGroup (leaves.filter (fun l => l.arm_index = k)) = .ok b := by
  intro keys
  induction keys with
  | nil => intro out h k hk; simp at hk
  | cons key rest ih =>
    intro out h k hk
    simp only [groupLoop] at h
    cases hp : processArmGroup (leaves.filter (fun l => l.arm_index = key)) with
    | error e => rw [hp] at h; exact absurd h (by simp)
    | ok b =>
      rw [hp] at h
      cases hrec : groupLoop leaves rest with
      | error e => rw [hrec] at h; exact absurd h (by simp)
      | ok out' =>
        rcases List.mem_cons.mp hk with rfl | hk
        · exact ⟨b, hp⟩
        · exact ih out' hrec k hk

theorem groupLoop_count (leaves : List MatchLeafBuilder) :
    ∀ (keys : List Nat), keys.Nodup →
    ∀ (out : List Nat),
    groupLoop leaves keys = .ok out →
    ∀ a, out.count a =
      if a ∈ keys ∧
          processArmGroup (leaves.filter (fun l => l.arm_index = a)) = .ok true
      then 1 else 0 := by
  intro keys
  induction keys with
  | nil =>
    intro hnd out h a
    simp only [groupLoop] at h
    cases h
    simp
  | cons key rest ih =>
    intro hnd out h a
    rw [List.nodup_cons] at hnd
    simp only [groupLoop] at h
    cases hp : processArmGroup (leaves.filter (fun l => l.arm_index = key)) with
    | error e => rw [hp] at h; exact absurd h (by simp)
    | ok b =>
      rw [hp] at h
      cases hrec : groupLoop leaves rest with
      | error e => rw [hrec] at h; exact absurd h (by simp)
      | ok out' =>
        rw [hrec] at h
        cases h
        have hcount' := ih hnd.2 out' hrec a
        by_cases hak : a = key
        · subst hak
          have hz : out'.count a = 0 := by
            rw [hcount', if_neg]
            rintro ⟨hm, _⟩
            exact hnd.1 hm
          cases b with
          | true =>
            rw [if_pos rfl, List.count_cons_self, hz,
              if_pos ⟨List.mem_cons_self a rest, hp⟩]
          | false =>
            rw [if_neg (by simp), hz, if_neg]
            rintro ⟨_, hptrue⟩
            rw [hp] at hptrue
            exact absurd hptrue (by simp)
        · have hstep : (if b then key :: out' else out').count a = out'.count a := by
            cases b
            · rfl
            · rw [if_pos rfl]
              exact List.count_cons_of_ne hak out'
          rw [hstep, hcount']
          have hiff : (a ∈ rest ∧
              processArmGroup (leaves.filter (fun l => l.arm_index = a)) = .ok true) ↔
              (a ∈ key :: rest ∧
              processArmGroup (leaves.filter (fun l => l.arm_index = a)) = .ok true) := by
            rw [List.mem_cons]
            constructor
            · rintro ⟨hm, hpt⟩; exact ⟨Or.inr hm, hpt⟩
            · rintro ⟨hm, hpt⟩
              rcases hm with rfl | hm
              · exact absurd rfl hak
              · exact ⟨hm, hpt⟩
          exact if_congr hiff rfl rfl

/-- C6 (counterexample): the leaves `[⟨arm 0, diverged⟩, ⟨arm 1, ok⟩]`.  The
joiner succeeds, arm 0 owns a leaf, yet `lower_tail_expr` is never invoked
for arm 0: the single diverged leaf is sealed from its flow error and the
arm's body is skipped. -/
theorem claim_C6_counterexample :
    group_match_arms exLeavesDiverge = .ok [1] ∧
    ([1] : List Nat).count 0 = 0 ∧
    exLeavesDiverge.filter (fun l => l.arm_index = 0) ≠ [] := by
  refine ⟨rfl, rfl, by simp [exLeavesDiverge]⟩

/-- C6 (amended): for every leaf list on which the joiner succeeds,
`lower_tail_expr` is invoked exactly once per arm index owning at least two
leaves (joined at a confluence) or exactly one leaf whose inner-pattern
lowering succeeded (lowered directly into the leaf's builder), and zero times
for an arm whose only leaf carries a flow error (the leaf is sealed as an
error block without lowering the body) — see `tailInvocations`. -/
theorem claim_C6_amended (leaves : List MatchLeafBuilder) (out : List Nat)
    (h : group_match_arms leaves = .ok out) :
    ∀ a, out.count a = tailInvocations leaves a := by
  intro a
  have hcount := groupLoop_count leaves (armGroupKeys leaves)
    (armGroupKeys_nodup leaves) out h a
  rw [hcount]
  cases hfa : leaves.filter (fun l => l.arm_index = a) with
  | nil =>
    have ht : tailInvocations leaves a = 0 := by
      simp [tailInvocations, hfa]
    rw [ht, if_neg]
    rintro ⟨hmem, _⟩
    obtain ⟨l, hl, hla⟩ := (armGroupKeys_mem leaves a).mp hmem
    have : l ∈ leaves.filter (fun l => l.arm_index = a) :=
      List.mem_filter.mpr ⟨hl, by simp [hla]⟩
    rw [hfa] at this
    simp at this
  | cons l1 ls =>
    have hmem : a ∈ armGroupKeys leaves := by
      rw [armGroupKeys_mem]
      have : l1 ∈ leaves.filter (fun l => l.arm_index = a) := by rw [hfa]; simp
      obtain ⟨hl, hla⟩ := List.mem_filter.mp this
      exact ⟨l1, hl, by simpa using hla⟩
    obtain ⟨b, hb⟩ := groupLoop_ok_each leaves (armGroupKeys leaves) out h a hmem
    cases ls with
    | nil =>
      have ht : tailInvocations leaves a =
          if l1.lowerin_result = .ok then 1 else 0 := by
        simp [tailInvocations, hfa]
      rw [ht]
      cases hres : l1.lowerin_result with
      | ok =>
        rw [if_pos ⟨hmem, by simp [hfa, processArmGroup, hres]⟩]
        simp
      | failed =>
        rw [hfa] at hb
        simp [processArmGroup, hres, sealLeaf] at hb
      | diverge =>
        rw [if_neg, if_neg (by simp)]
        rintro ⟨_, hptrue⟩
        simp [hfa, processArmGroup, hres, sealLeaf] at hptrue
    | cons l2 ls' =>
      have ht : tailInvocations leaves a = 1 := by
        simp [tailInvocations, hfa]
      rw [hfa] at hb
      have hb' : processArmGroup (l1 :: l2 :: ls') = .ok true := by
        simp only [processArmGroup] at hb ⊢
        cases hseq : sequenceSeal (l1 :: l2 :: ls') with
        | error e => rw [hseq] at hb; exact absurd hb (by simp)
        | ok u => rfl
      rw [ht, if_pos ⟨hmem, hfa ▸ hb'⟩]

/-- Witness for C6: the amended theorem evaluated on leaves with a
multi-leaf arm 1 and a single successful leaf for arm 0. -/
theorem claim_C6_witness :
    group_match_arms [⟨1, .ok⟩, ⟨0, .ok⟩, ⟨1, .diverge⟩] = .ok [0, 1] ∧
    (∀ a, ([0, 1] : List Nat).count a =
      tailInvocations [⟨1, .ok⟩, ⟨0, .ok⟩, ⟨1, .diverge⟩] a) :=
  ⟨rfl, claim_C6_amended [⟨1, .ok⟩, ⟨0, .ok⟩, ⟨1, .diverge⟩] [0, 1] rfl⟩

/-! ## C8: missing-variant diagnostics of the flat enum match -/

theorem enumVariantLeaf_missing (arms : List MatchArm)
    (vmap : List (ConcreteVariant × PatternPath)) (v : ConcreteVariant)
    (hlk : alookup vmap v = none) :
    enumVariantLeaf arms vmap none v =
      (some (.missingMatchArm v.name), .error (.diag (.missingMatchArm v.name))) := by
  unfold enumVariantLeaf
  rw [hlk]
  rfl

theorem enumVariantLeaf_present (arms : List MatchArm)
    (vmap : List (ConcreteVariant × PatternPath)) (v : ConcreteVariant)
    (pp : PatternPath) (hlk : alookup vmap v = some pp)
    (hwf : enumLeafWf arms vmap v = true) :
    enumVariantLeaf arms vmap none v = (none, .ok pp.arm_index) := by
  unfold enumLeafWf at hwf
  simp only [hlk] at hwf
  unfold enumVariantLeaf
  simp only [hlk, optionOr]
  cases hga : arms.get? pp.arm_index with
  | none => simp only [hga] at hwf; exact absurd hwf (by simp)
  | some arm =>
    simp only [hga] at hwf ⊢
    cases hgp : arm.patterns.get? pp.pattern_index with
    | none => simp only [hgp] at hwf; exact absurd hwf (by simp)
    | some pat =>
      simp only [hgp] at hwf ⊢
      cases pat with
      | enumVariant w hi => rfl
      | otherwise => rfl
      | literal k => exact absurd hwf (by simp [enumLeafPatternOk])
      | tuple fs => exact absurd hwf (by simp [enumLeafPatternOk])
      | other => exact absurd hwf (by simp [enumLeafPatternOk])

/-- C8 (confirmed): for a single-enum match with no wildcard arm, the
per-variant leaf phase of `lower_expr_match` reports one
`MissingMatchArm("<variant name>")` per concrete variant absent from the
variant map, in variant order, and the collected result is the failure
carrying the first missing variant's diagnostic; when no variant is missing
the phase succeeds. -/
theorem claim_C8_missing_variant_diagnostics (arms : List MatchArm)
    (vmap : List (ConcreteVariant × PatternPath))
    (variants : List ConcreteVariant)
    (hwf : ∀ v ∈ variants, enumLeafWf arms vmap v = true) :
    (lower_expr_match_enum_leaves arms variants vmap none).1 =
      (variants.filter (fun v => (alookup vmap v).isNone)).map
        (fun v => Diag.missingMatchArm v.name) ∧
    (∀ v₀ rest, variants.filter (fun v => (alookup vmap v).isNone) = v₀ :: rest →
      (lower_expr_match_enum_leaves arms variants vmap none).2 =
        .error (.diag (.missingMatchArm v₀.name))) ∧
    (variants.filter (fun v => (alookup vmap v).isNone) = [] →
      ∃ out, (lower_expr_match_enum_leaves arms variants vmap none).2 = .ok out) := by
  induction variants with
  | nil =>
    refine ⟨rfl, ?_, fun _ => ⟨[], rfl⟩⟩
    intro v₀ rest h
    simp at h
  | cons v rest ih =>
    obtain ⟨ih1, ih2, ih3⟩ := ih (fun w hw => hwf w (by simp [hw]))
    have hwfv := hwf v (by simp)
    cases hlk : alookup vmap v with
    | none =>
      have hleaf := enumVariantLeaf_missing arms vmap v hlk
      have hfilter : (v :: rest).filter (fun v => (alookup vmap v).isNone) =
          v :: rest.filter (fun v => (alookup vmap v).isNone) := by
        simp [List.filter_cons, hlk]
      refine ⟨?_, ?_, ?_⟩
      · simp only [lower_expr_match_enum_leaves, List.map_cons, hleaf,
          List.filterMap_cons, hfilter] at ih1 ⊢
        simp only [ih1]
      · intro v₀ rest' hf
        rw [hfilter] at hf
        obtain ⟨rfl, _⟩ : v = v₀ ∧ _ := by
          exact ⟨(List.cons.injEq _ _ _ _ ▸ hf).1, trivial⟩
        simp only [lower_expr_match_enum_leaves, List.map_cons, hleaf,
          sequenceExcept]
      · intro hf
        rw [hfilter] at hf
        exact absurd hf (by simp)
    | some pp =>
      have hleaf := enumVariantLeaf_present arms vmap v pp hlk hwfv
      have hfilter : (v :: rest).filter (fun v => (alookup vmap v).isNone) =
          rest.filter (fun v => (alookup vmap v).isNone) := by
        simp [List.filter_cons, hlk]
      refine ⟨?_, ?_, ?_⟩
      · simp only [lower_expr_match_enum_leaves, List.map_cons, hleaf,
          List.filterMap_cons, hfilter] at ih1 ⊢
        exact ih1
      · intro v₀ rest' hf
        rw [hfilter] at hf
        have h2 := ih2 v₀ rest' hf
        simp only [lower_expr_match_enum_leaves, List.map_cons, hleaf,
          sequenceExcept] at h2 ⊢
        rw [h2]
      · intro hf
        rw [hfilter] at hf
        obtain ⟨out, hout⟩ := ih3 hf
        simp only [lower_expr_match_enum_leaves, List.map_cons, hleaf,
          sequenceExcept] at hout ⊢
        rw [hout]
        exact ⟨pp.arm_index :: out, rfl⟩

/-- Witness for C8: the enum `E{A, B, C}` with arms `[A ⇒ e0, B ⇒ e1]` and
no wildcard (spec scenario 3): one `MissingMatchArm("C")` diagnostic and a
failure carrying it. -/
theorem claim_C8_witness :
    (∀ v ∈ [exVA, exVB, exVC], enumLeafWf exArmsAB exVmapAB v = true) ∧
    ((lower_expr_match_enum_leaves exArmsAB [exVA, exVB, exVC] exVmapAB none).1 =
      ([exVA, exVB, exVC].filter
          (fun v => (alookup exVmapAB v).isNone)).map
        (fun v => Diag.missingMatchArm v.name) ∧
     (∀ v₀ rest,
        [exVA, exVB, exVC].filter (fun v => (alookup exVmapAB v).isNone) =
          v₀ :: rest →
        (lower_expr_match_enum_leaves exArmsAB [exVA, exVB, exVC] exVmapAB none).2 =
          .error (.diag (.missingMatchArm v₀.name))) ∧
     ([exVA, exVB, exVC].filter (fun v => (alookup exVmapAB v).isNone) = [] →
      ∃ out,
        (lower_expr_match_enum_leaves exArmsAB [exVA, exVB, exVC] exVmapAB none).2 =
          .ok out)) :=
  ⟨by decide, claim_C8_missing_variant_diagnostics exArmsAB exVmapAB
    [exVA, exVB, exVC] (by decide)⟩

/-! ## C5: arm-order stability of the variant and tuple decision maps -/

@[simp] theorem optionOr_some {α : Type} (a : α) (b : Option α) :
    optionOr (some a) b = some a := rfl

@[simp] theorem optionOr_none {α : Type} (b : Option α) :
    optionOr none b = b := rfl

@[simp] theorem optionOr_none_right {α : Type} (a : Option α) :
    optionOr a none = a := by cases a <;> rfl

theorem optionOr_assoc {α : Type} (a b c : Option α) :
    optionOr (optionOr a b) c = optionOr a (optionOr b c) := by
  cases a <;> cases b <;> rfl

theorem alookup_append_single {α β : Type} [DecidableEq α]
    (m : List (α × β)) (k : α) (v : β) (key : α) :
    alookup (m ++ [(k, v)]) key =
      optionOr (alookup m key) (if k = key then some v else none) := by
  rw [alookup_append]
  cases alookup m key <;> simp [Option.orElse]

theorem variantMapPats_lookup (eid armIdx : Nat) (pats : List Pattern) :
    ∀ (patIdx : Nat) (ds ds' : List Diag)
      (m m' : List (ConcreteVariant × PatternPath)),
    variantMapPats eid armIdx patIdx pats ds m = (ds', .ok m') →
    ∀ v, alookup m' v =
      optionOr (alookup m v)
        ((armFirstCoverFrom v patIdx pats).map (fun j => (⟨armIdx, j⟩ : PatternPath))) := by
  induction pats with
  | nil =>
    intro patIdx ds ds' m m' h v
    simp only [variantMapPats, Prod.mk.injEq] at h
    obtain ⟨_, h2⟩ := h
    cases h2
    simp [armFirstCoverFrom]
  | cons p rest ih =>
    intro patIdx ds ds' m m' h v
    cases p with
    | otherwise =>
      simp only [variantMapPats, Prod.mk.injEq] at h
      obtain ⟨_, h2⟩ := h
      cases h2
      simp [armFirstCoverFrom]
    | enumVariant w hi =>
      simp only [variantMapPats] at h
      by_cases he : w.concrete_enum_id = eid
      · rw [if_pos he] at h
        cases hlk : alookup m w with
        | some q =>
          rw [hlk] at h
          have hrec := ih (patIdx + 1) _ ds' m m' h v
          rw [hrec]
          simp only [armFirstCoverFrom]
          by_cases hwv : w = v
          · subst hwv
            rw [if_pos rfl, hlk]
            rfl
          · rw [if_neg hwv]
        | none =>
          rw [hlk] at h
          have hrec := ih (patIdx + 1) _ ds' _ m' h v
          rw [hrec, alookup_append_single]
          simp only [armFirstCoverFrom]
          by_cases hwv : w = v
          · subst hwv
            rw [if_pos rfl, if_pos rfl, hlk]
            simp only [optionOr_none, Option.map_some]
            cases armFirstCoverFrom w (patIdx + 1) rest <;> rfl
          · rw [if_neg hwv, if_neg hwv]
            simp
      · rw [if_neg he] at h
        simp only [Prod.mk.injEq] at h
        exact absurd h.2 (by simp)
    | literal k =>
      simp only [variantMapPats, Prod.mk.injEq] at h
      exact absurd h.2 (by simp)
    | tuple fs =>
      simp only [variantMapPats, Prod.mk.injEq] at h
      exact absurd h.2 (by simp)
    | other =>
      simp only [variantMapPats, Prod.mk.injEq] at h
      exact absurd h.2 (by simp)

theorem variantMapArms_lookup (eid : Nat) (arms : List MatchArm) :
    ∀ (armIdx : Nat) (ds ds' : List Diag)
      (m m' : List (ConcreteVariant × PatternPath)),
    variantMapArms eid armIdx arms ds m = (ds', .ok m') →
    ∀ v, alookup m' v =
      optionOr (alookup m v) (firstCoverVariantFrom v armIdx arms) := by
  induction arms with
  | nil =>
    intro armIdx ds ds' m m' h v
    simp only [variantMapArms, Prod.mk.injEq] at h
    obtain ⟨_, h2⟩ := h
    cases h2
    simp [firstCoverVariantFrom]
  | cons a rest ih =>
    intro armIdx ds ds' m m' h v
    simp only [variantMapArms] at h
    cases hp : variantMapPats eid armIdx 0 a.patterns ds m with
    | mk ds1 r =>
      cases r with
      | error d1 =>
        rw [hp] at h
        simp only [Prod.mk.injEq] at h
        exact absurd h.2 (by simp)
      | ok m1 =>
        rw [hp] at h
        have h1 := variantMapPats_lookup eid armIdx a.patterns 0 ds ds1 m m1 hp v
        have h2 := ih (armIdx + 1) ds1 ds' m1 m' h v
        rw [h2, h1, optionOr_assoc]
        simp only [firstCoverVariantFrom]
        cases armFirstCoverFrom v 0 a.patterns <;> rfl

theorem insert_tuple_path_patterns_lookup (pats : List FieldPattern) :
    ∀ (dss : List ExtractedEnumDetails) (path : List ConcreteVariant)
      (m m' : List (List ConcreteVariant × PatternPath)) (pp : PatternPath),
    insert_tuple_path_patterns pp pats dss path m = .ok m' →
    (∀ ext, fieldsCover pats dss ext = true →
      alookup m' (path ++ ext) = optionOr (alookup m (path ++ ext)) (some pp)) ∧
    (∀ k, (∀ ext, k = path ++ ext → fieldsCover pats dss ext = false) →
      alookup m' k = alookup m k) := by
  induction pats with
  | nil =>
    intro dss path m m' pp h
    simp only [insert_tuple_path_patterns] at h
    cases h
    constructor
    · intro ext hcov
      have hext : ext = [] := by
        cases ext with
        | nil => rfl
        | cons e es => simp [fieldsCover] at hcov
      subst hext
      simp only [List.append_nil]
      unfold tmapInsert
      cases hlk : alookup m path with
      | some q => simp [hlk]
      | none => simp [hlk, alookup_append_single]
    · intro k hk
      have hkp : path ≠ k := by
        intro hkk
        have := hk [] (by simp [hkk])
        simp [fieldsCover] at this
      unfold tmapInsert
      cases hlk : alookup m path with
      | some q => rfl
      | none =>
        rw [alookup_append_single, if_neg hkp]
        simp
  | cons p ps ih =>
    intro dss path m m' pp h
    cases p with
    | enumVariant w hi =>
      cases dss with
      | nil =>
        simp only [insert_tuple_path_patterns] at h
        exact absurd h (by simp)
      | cons d ds =>
        simp only [insert_tuple_path_patterns] at h
        by_cases he : w.concrete_enum_id = d.concrete_enum_id
        · rw [if_pos he] at h
          obtain ⟨ih1, ih2⟩ := ih ds (path ++ [w]) m m' pp h
          constructor
          · intro ext hcov
            cases ext with
            | nil => simp [fieldsCover] at hcov
            | cons v vs =>
              by_cases hwv : w = v
              · subst hwv
                rw [show path ++ w :: vs = (path ++ [w]) ++ vs from by simp]
                exact ih1 vs (by simpa [fieldsCover] using hcov)
              · rw [show fieldsCover (FieldPattern.enumVariant w hi :: ps)
                  (d :: ds) (v :: vs) = false from by simp [fieldsCover, hwv]] at hcov
                exact absurd hcov (by simp)
          · intro k hk
            refine ih2 k ?_
            intro ext' hke
            have := hk (w :: ext') (by simpa using hke)
            simpa [fieldsCover] using this
        · rw [if_neg he] at h
          exact absurd h (by simp)
    | otherwise =>
      cases dss with
      | nil =>
        simp only [insert_tuple_path_patterns] at h
        exact absurd h (by simp)
      | cons d ds =>
        simp only [insert_tuple_path_patterns] at h
        have hfold : ∀ (vs : List ConcreteVariant)
            (m0 m1 : List (List ConcreteVariant × PatternPath)),
            insertOtherwiseFold pp ps ds path vs m0 = .ok m1 →
            (∀ v vs2, fieldsCover ps ds vs2 = true → v ∈ vs →
              alookup m1 (path ++ v :: vs2) =
                optionOr (alookup m0 (path ++ v :: vs2)) (some pp)) ∧
            (∀ k, (∀ v vs2, k = path ++ v :: vs2 → v ∈ vs →
                fieldsCover ps ds vs2 = false) →
              alookup m1 k = alookup m0 k) := by
          intro vs
          induction vs with
          | nil =>
            intro m0 m1 hf
            simp only [insertOtherwiseFold] at hf
            cases hf
            exact ⟨fun v vs2 _ hv => absurd hv (by simp), fun k _ => rfl⟩
          | cons v0 vrest ihv =>
            intro m0 m1 hf
            simp only [insertOtherwiseFold] at hf
            cases hins : insert_tuple_path_patterns pp ps ds (path ++ [v0]) m0 with
            | error f =>
              rw [hins] at hf
              exact absurd hf (by simp)
            | ok mA =>
              rw [hins] at hf
              obtain ⟨iA1, iA2⟩ := ih ds (path ++ [v0]) m0 mA pp hins
              obtain ⟨iF1, iF2⟩ := ihv mA m1 hf
              constructor
              · intro v vs2 hcov hv
                rcases List.mem_cons.mp hv with rfl | hv
                · have hA : alookup mA (path ++ v :: vs2) =
                      optionOr (alookup m0 (path ++ v :: vs2)) (some pp) := by
                    rw [show path ++ v :: vs2 = (path ++ [v]) ++ vs2 from by simp]
                    exact iA1 vs2 hcov
                  by_cases hv0r : v ∈ vrest
                  · rw [iF1 v vs2 hcov hv0r, hA, optionOr_assoc]
                    rfl
                  · rw [iF2 (path ++ v :: vs2) ?_, hA]
                    intro v' vs2' hke hv'
                    exfalso
                    have hcons : v :: vs2 = v' :: vs2' :=
                      List.append_cancel_left hke
                    obtain ⟨rfl, -⟩ :=
                      (List.cons.injEq _ _ _ _ ▸ hcons : v = v' ∧ vs2 = vs2')
                    exact hv0r hv'
                · have hm1 := iF1 v vs2 hcov hv
                  rw [hm1]
                  by_cases hvv0 : v = v0
                  · subst hvv0
                    have hA : alookup mA (path ++ v :: vs2) =
                        optionOr (alookup m0 (path ++ v :: vs2)) (some pp) := by
                      rw [show path ++ v :: vs2 = (path ++ [v]) ++ vs2 from by simp]
                      exact iA1 vs2 hcov
                    rw [hA, optionOr_assoc]
                    rfl
                  · have hA : alookup mA (path ++ v :: vs2) =
                        alookup m0 (path ++ v :: vs2) := by
                      refine iA2 (path ++ v :: vs2) ?_
                      intro ext' hke
                      exfalso
                      have : v :: vs2 = v0 :: ext' := by
                        have h1 : path ++ v :: vs2 = path ++ v0 :: ext' := by
                          simpa using hke
                        exact List.append_cancel_left h1
                      exact hvv0 (List.cons.injEq _ _ _ _ ▸ this).1
                    rw [hA]
              · intro k hk
                have h2 := iF2 k (fun v' vs2' hke hv' => hk v' vs2' hke (by simp [hv']))
                rw [h2]
                refine iA2 k ?_
                intro ext' hke
                exact hk v0 ext' (by simpa using hke) (by simp)
        obtain ⟨hf1, hf2⟩ := hfold d.concrete_variants m m' h
        constructor
        · intro ext hcov
          cases ext with
          | nil => simp [fieldsCover] at hcov
          | cons v vs2 =>
            by_cases hv : v ∈ d.concrete_variants
            · exact hf1 v vs2 (by simpa [fieldsCover, hv] using hcov) hv
            · rw [show fieldsCover (FieldPattern.otherwise :: ps) (d :: ds)
                (v :: vs2) = false from by simp [fieldsCover, hv]] at hcov
              exact absurd hcov (by simp)
        · intro k hk
          refine hf2 k ?_
          intro v vs2 hke hv
          have := hk (v :: vs2) hke
          simpa [fieldsCover, hv] using this
    | other =>
      simp only [insert_tuple_path_patterns] at h
      exact absurd h (by simp)

theorem tupleMapPats_lookup (details : List ExtractedEnumDetails) (armIdx : Nat)
    (pats : List Pattern) :
    ∀ (patIdx : Nat) (ds ds' : List Diag)
      (m m' : List (List ConcreteVariant × PatternPath)),
    tupleMapPats details armIdx patIdx pats ds m = (ds', .ok m') →
    ∀ k, alookup m' k =
      optionOr (alookup m k)
        ((armTupleFirstCoverFrom details k patIdx pats).map
          (fun j => (⟨armIdx, j⟩ : PatternPath))) := by
  induction pats with
  | nil =>
    intro patIdx ds ds' m m' h k
    simp only [tupleMapPats, Prod.mk.injEq] at h
    obtain ⟨_, h2⟩ := h
    cases h2
    simp [armTupleFirstCoverFrom]
  | cons p rest ihp =>
    intro patIdx ds ds' m m' h k
    cases p with
    | otherwise =>
      simp only [tupleMapPats, Prod.mk.injEq] at h
      obtain ⟨_, h2⟩ := h
      cases h2
      simp [armTupleFirstCoverFrom]
    | tuple fields =>
      simp only [tupleMapPats] at h
      cases hins : insert_tuple_path_patterns ⟨armIdx, patIdx⟩ fields details [] m with
      | error f =>
        rw [hins] at h
        cases f with
        | diag d =>
          simp only [Prod.mk.injEq] at h
          exact absurd h.2 (by simp)
        | panicked =>
          simp only [Prod.mk.injEq] at h
          exact absurd h.2 (by simp)
      | ok m1 =>
        rw [hins] at h
        have hrec := ihp (patIdx + 1)
          (if m1.length = m.length then ds ++ [.unreachableMatchArm armIdx patIdx] else ds)
          ds' m1 m' h k
        obtain ⟨i1, i2⟩ := insert_tuple_path_patterns_lookup fields details [] m m1
          ⟨armIdx, patIdx⟩ hins
        have hm1 : alookup m1 k =
            optionOr (alookup m k)
              (if fieldsCover fields details k = true
                then some (⟨armIdx, patIdx⟩ : PatternPath) else none) := by
          cases hcov : fieldsCover fields details k with
          | true =>
            rw [if_pos rfl]
            have := i1 k hcov
            simpa using this
          | false =>
            rw [if_neg (by simp)]
            simp only [optionOr_none_right]
            refine i2 k ?_
            intro ext hke
            simp only [List.nil_append] at hke
            subst hke
            exact hcov
        rw [hrec, hm1, optionOr_assoc]
        simp only [armTupleFirstCoverFrom]
        cases hcov : fieldsCover fields details k with
        | true =>
          rw [if_pos rfl]
          simp only [Option.map_some]
          cases armTupleFirstCoverFrom details k (patIdx + 1) rest <;> rfl
        | false =>
          rw [if_neg (by simp)]
          simp
    | literal v =>
      simp only [tupleMapPats, Prod.mk.injEq] at h
      exact absurd h.2 (by simp)
    | enumVariant w hi =>
      simp only [tupleMapPats, Prod.mk.injEq] at h
      exact absurd h.2 (by simp)
    | other =>
      simp only [tupleMapPats, Prod.mk.injEq] at h
      exact absurd h.2 (by simp)

theorem tupleMapArms_lookup (details : List ExtractedEnumDetails)
    (arms : List MatchArm) :
    ∀ (armIdx : Nat) (ds ds' : List Diag)
      (m m' : List (List ConcreteVariant × PatternPath)),
    tupleMapArms details armIdx arms ds m = (ds', .ok m') →
    ∀ k, alookup m' k =
      optionOr (alookup m k) (firstTupleCoverFrom details k armIdx arms) := by
  induction arms with
  | nil =>
    intro armIdx ds ds' m m' h k
    simp only [tupleMapArms, Prod.mk.injEq] at h
    obtain ⟨_, h2⟩ := h
    cases h2
    simp [firstTupleCoverFrom]
  | cons a rest ih =>
    intro armIdx ds ds' m m' h k
    simp only [tupleMapArms] at h
    cases hp : tupleMapPats details armIdx 0 a.patterns ds m with
    | mk ds1 r =>
      cases r with
      | error f =>
        rw [hp] at h
        simp only [Prod.mk.injEq] at h
        exact absurd h.2 (by simp)
      | ok m1 =>
        rw [hp] at h
        have h1 := tupleMapPats_lookup details armIdx a.patterns 0 ds ds1 m m1 hp k
        have h2 := ih (armIdx + 1) ds1 ds' m1 m' h k
        rw [h2, h1, optionOr_assoc]
        simp only [firstTupleCoverFrom]
        cases armTupleFirstCoverFrom details k 0 a.patterns <;> rfl

/-- C5 (confirmed): arm-order stability of both decision maps.  In the
single-enum variant map, the surviving entry for a variant is the first
pattern covering it in source-traversal order (smallest arm index, then
smallest pattern index within the arm, scanning stopping at each arm's first
wildcard) — see `firstCoverVariantFrom`; a later pattern hitting an occupied
key never overwrites it.  In the tuple decision map the surviving entry for
a matching path is likewise the first tuple pattern covering that path — see
`firstTupleCoverFrom` and `fieldsCover`. -/
theorem claim_C5_arm_order_stability :
    (∀ (arms : List MatchArm) (eid : Nat) (ds : List Diag)
      (m : List (ConcreteVariant × PatternPath)),
      get_variant_to_arm_map arms eid = (ds, .ok m) →
      ∀ v, alookup m v = firstCoverVariantFrom v 0 arms) ∧
    (∀ (arms : List MatchArm) (details : List ExtractedEnumDetails)
      (ds : List Diag) (m : List (List ConcreteVariant × PatternPath)),
      get_variants_to_arm_map_tuple arms details = (ds, .ok m) →
      ∀ k, alookup m k = firstTupleCoverFrom details k 0 arms) := by
  constructor
  · intro arms eid ds m h v
    have := variantMapArms_lookup eid arms 0 [] ds [] m h v
    simpa using this
  · intro arms details ds m h k
    have := tupleMapArms_lookup details arms 0 [] ds [] m h k
    simpa using this

/-- Witness for C5: the enum map of `[A | A ⇒ e0, B ⇒ e1]` keeps the first
`A` entry (reporting the shadowed duplicate), and the tuple decision map of
spec scenario 4 routes `(B, X)` to its first covering pattern, the full
wildcard tuple pattern of arm 2. -/
theorem claim_C5_witness :
    get_variant_to_arm_map exArmsAAB 7 =
      ([.unreachableMatchArm 0 1], .ok [(exVA, ⟨0, 0⟩), (exVB, ⟨1, 0⟩)]) ∧
    get_variants_to_arm_map_tuple exTupArms [exDE, exDF] = ([], .ok exTupMap) ∧
    alookup [(exVA, (⟨0, 0⟩ : PatternPath)), (exVB, ⟨1, 0⟩)] exVA =
      firstCoverVariantFrom exVA 0 exArmsAAB ∧
    alookup exTupMap [exEB, exFX] =
      firstTupleCoverFrom [exDE, exDF] [exEB, exFX] 0 exTupArms :=
  ⟨by decide,
   by simp [get_variants_to_arm_map_tuple, tupleMapArms, tupleMapPats,
     insert_tuple_path_patterns, insertOtherwiseFold, tmapInsert, exTupArms,
     exTupMap, exDE, exDF, exEA, exEB, exFX, exFY, exFZ, alookup],
   claim_C5_arm_order_stability.1 exArmsAAB 7 [.unreachableMatchArm 0 1]
     [(exVA, ⟨0, 0⟩), (exVB, ⟨1, 0⟩)] (by decide) exVA,
   claim_C5_arm_order_stability.2 exTupArms [exDE, exDF] [] exTupMap
     (by simp [get_variants_to_arm_map_tuple, tupleMapArms, tupleMapPats,
       insert_tuple_path_patterns, insertOtherwiseFold, tmapInsert, exTupArms,
       exTupMap, exDE, exDF, exEA, exEB, exFX, exFY, exFZ, alookup])
     [exEB, exFX]⟩

/-! ## C7: snapshot transparency of the tuple decision tree -/

theorem lower_tuple_match_arm_state (arms : List MatchArm)
    (vmap : List (List ConcreteVariant × PatternPath)) (otherw : Option PatternPath)
    (path : List ConcreteVariant) (st st2 : TreeState) (a : Nat)
    (h : lower_tuple_match_arm arms vmap otherw path st = .ok (st2, a)) :
    st2.varLog = st.varLog := by
  unfold lower_tuple_match_arm at h
  repeat' split at h
  all_goals cases h <;> rfl

theorem lower_full_match_tree_log (arms : List MatchArm)
    (vmap : List (List ConcreteVariant × PatternPath)) (otherw : Option PatternPath)
    (nOuter : Nat) :
    ∀ (n : Nat) (rem : List ExtractedEnumDetails), rem.length ≤ n →
    ∀ (path : List ConcreteVariant) (st : TreeState),
    ∀ e ∈ (lower_full_match_tree arms vmap otherw nOuter rem path st).1.varLog,
      e ∈ st.varLog ∨
      ∃ j, ∃ hj : j < rem.length, e.1 = path.length + j ∧
        e.2.2.1 ∈ (rem.get ⟨j, hj⟩).concrete_variants ∧
        e.2.2.2 = wrap_in_snapshots e.2.2.1.ty
          ((rem.get ⟨j, hj⟩).n_snapshots + nOuter) := by
  intro n
  induction n with
  | zero =>
    intro rem hlen path st e he
    have hnil : rem = [] := List.length_eq_zero.mp (Nat.le_zero.mp hlen)
    subst hnil
    simp only [lower_full_match_tree] at he
    exact Or.inl he
  | succ n ihn =>
    intro rem hlen path st e he
    cases rem with
    | nil =>
      simp only [lower_full_match_tree] at he
      exact Or.inl he
    | cons d dRest =>
      have hfold : ∀ (vs : List ConcreteVariant) (path' : List ConcreteVariant)
          (st0 : TreeState),
          ∀ e ∈ (treeVariantsFold arms vmap otherw nOuter d dRest path' vs st0).1.varLog,
          e ∈ st0.varLog ∨
          (e.1 = path'.length ∧ e.2.2.1 ∈ vs ∧
            e.2.2.2 = wrap_in_snapshots e.2.2.1.ty (d.n_snapshots + nOuter)) ∨
          ∃ j, ∃ hj : j < dRest.length, e.1 = path'.length + 1 + j ∧
            e.2.2.1 ∈ (dRest.get ⟨j, hj⟩).concrete_variants ∧
            e.2.2.2 = wrap_in_snapshots e.2.2.1.ty
              ((dRest.get ⟨j, hj⟩).n_snapshots + nOuter) := by
        intro vs
        induction vs with
        | nil =>
          intro path' st0 e he
          simp only [treeVariantsFold] at he
          exact Or.inl he
        | cons v vrest ihv =>
          intro path' st0 e he
          simp only [treeVariantsFold] at he
          by_cases hdr : dRest = []
          · rw [if_pos hdr] at he
            cases harm : lower_tuple_match_arm arms vmap otherw (path' ++ [v])
                { st0 with
                    nextVar := st0.nextVar + 1,
                    varLog := st0.varLog ++
                      [(path'.length, st0.nextVar, v,
                        wrap_in_snapshots v.ty (d.n_snapshots + nOuter))] } with
            | ok p =>
              obtain ⟨stA, armIdx⟩ := p
              simp only [harm] at he
              have hlog := lower_tuple_match_arm_state arms vmap otherw
                (path' ++ [v]) _ stA armIdx harm
              rcases ihv path' stA e he with hin | hmid | hrest
              · rw [hlog] at hin
                rcases List.mem_append.mp hin with hin | hnew
                · exact Or.inl hin
                · simp only [List.mem_singleton] at hnew
                  subst hnew
                  exact Or.inr (Or.inl ⟨rfl, by simp, rfl⟩)
              · exact Or.inr (Or.inl ⟨hmid.1, by simp [hmid.2.1], hmid.2.2⟩)
              · exact Or.inr (Or.inr hrest)
            | error f =>
              simp only [harm] at he
              rcases ihv path' _ e he with hin | hmid | hrest
              · rcases List.mem_append.mp hin with hin | hnew
                · exact Or.inl hin
                · simp only [List.mem_singleton] at hnew
                  subst hnew
                  exact Or.inr (Or.inl ⟨rfl, by simp, rfl⟩)
              · exact Or.inr (Or.inl ⟨hmid.1, by simp [hmid.2.1], hmid.2.2⟩)
              · exact Or.inr (Or.inr hrest)
          · rw [if_neg hdr] at he
            cases htree : lower_full_match_tree arms vmap otherw nOuter dRest
                (path' ++ [v])
                { st0 with
                    nextVar := st0.nextVar + 1,
                    varLog := st0.varLog ++
                      [(path'.length, st0.nextVar, v,
                        wrap_in_snapshots v.ty (d.n_snapshots + nOuter))] } with
            | mk stA r =>
              have hlen' : dRest.length ≤ n := by
                simp only [List.length_cons] at hlen
                omega
              have hsub := ihn dRest hlen' (path' ++ [v])
                { st0 with
                    nextVar := st0.nextVar + 1,
                    varLog := st0.varLog ++
                      [(path'.length, st0.nextVar, v,
                        wrap_in_snapshots v.ty (d.n_snapshots + nOuter))] }
              rw [htree] at hsub
              have hstep : ∀ e ∈ stA.varLog,
                  e ∈ st0.varLog ∨
                  (e.1 = path'.length ∧ e.2.2.1 ∈ v :: vrest ∧
                    e.2.2.2 = wrap_in_snapshots e.2.2.1.ty (d.n_snapshots + nOuter)) ∨
                  ∃ j, ∃ hj : j < dRest.length, e.1 = path'.length + 1 + j ∧
                    e.2.2.1 ∈ (dRest.get ⟨j, hj⟩).concrete_variants ∧
                    e.2.2.2 = wrap_in_snapshots e.2.2.1.ty
                      ((dRest.get ⟨j, hj⟩).n_snapshots + nOuter) := by
                intro e' he'
                rcases hsub e' he' with hin | ⟨j, hj, hax, hv, hty⟩
                · rcases List.mem_append.mp hin with hin | hnew
                  · exact Or.inl hin
                  · simp only [List.mem_singleton] at hnew
                    subst hnew
                    exact Or.inr (Or.inl ⟨rfl, by simp, rfl⟩)
                · refine Or.inr (Or.inr ⟨j, hj, ?_, hv, hty⟩)
                  simp only [List.length_append, List.length_cons,
                    List.length_nil] at hax
                  omega
              cases r with
              | ok t =>
                simp only [htree] at he
                rcases ihv path' stA e he with hin | hmid | hrest
                · exact hstep e hin
                · exact Or.inr (Or.inl ⟨hmid.1, by simp [hmid.2.1], hmid.2.2⟩)
                · exact Or.inr (Or.inr hrest)
              | error f =>
                simp only [htree] at he
                rcases ihv path' stA e he with hin | hmid | hrest
                · exact hstep e hin
                · exact Or.inr (Or.inl ⟨hmid.1, by simp [hmid.2.1], hmid.2.2⟩)
                · exact Or.inr (Or.inr hrest)
      simp only [lower_full_match_tree] at he
      rcases hfold d.concrete_variants path st e he with hin | hmid | hrest
      · exact Or.inl hin
      · refine Or.inr ⟨0, by simp, by simpa using hmid.1, ?_, ?_⟩
        · simpa using hmid.2.1
        · simpa using hmid.2.2
      · obtain ⟨j, hj, hax, hv, hty⟩ := hrest
        refine Or.inr ⟨j + 1, by simpa using Nat.succ_lt_succ hj, by omega, ?_, ?_⟩
        · simpa using hv
        · simpa using hty

/-- C7 (confirmed): for every tuple-of-enums decision-tree walk, the payload
variable allocated at axis `i` is typed as the variant's payload type wrapped
in `n_snapshots(axis i) + n_snapshots_outer` snapshot layers (and the logged
variant is one of axis `i`'s concrete variants). -/
theorem claim_C7_snapshot_transparency (arms : List MatchArm)
    (vmap : List (List ConcreteVariant × PatternPath)) (otherw : Option PatternPath)
    (nOuter n0 : Nat) (allDetails : List ExtractedEnumDetails) :
    ∀ axis vid v ty,
    (axis, vid, v, ty) ∈
      (lower_full_match_tree arms vmap otherw nOuter allDetails []
        ⟨n0, [], []⟩).1.varLog →
    ∃ hax : axis < allDetails.length,
      v ∈ (allDetails.get ⟨axis, hax⟩).concrete_variants ∧
      ty = wrap_in_snapshots v.ty
        ((allDetails.get ⟨axis, hax⟩).n_snapshots + nOuter) := by
  intro axis vid v ty hmem
  rcases lower_full_match_tree_log arms vmap otherw nOuter allDetails.length
      allDetails (Nat.le_refl _) [] ⟨n0, [], []⟩ (axis, vid, v, ty) hmem with
    hin | ⟨j, hj, hax, hv, hty⟩
  · simp at hin
  · simp only [List.length_nil, Nat.zero_add] at hax
    subst hax
    exact ⟨hj, hv, hty⟩

theorem claim_C7_witness :
    (0, 0, exEA, wrap_in_snapshots (Ty.base 10) 3) ∈
      (lower_full_match_tree exTupArms exTupMap none 2 [exDE, exDF] []
        ⟨0, [], []⟩).1.varLog ∧
    ∃ hax : 0 < [exDE, exDF].length,
      exEA ∈ ([exDE, exDF].get ⟨0, hax⟩).concrete_variants ∧
      wrap_in_snapshots (Ty.base 10) 3 = wrap_in_snapshots exEA.ty
        (([exDE, exDF].get ⟨0, hax⟩).n_snapshots + 2) :=
  have hmem : (0, 0, exEA, wrap_in_snapshots (Ty.base 10) 3) ∈
      (lower_full_match_tree exTupArms exTupMap none 2 [exDE, exDF] []
        ⟨0, [], []⟩).1.varLog := by
    simp [lower_full_match_tree, treeVariantsFold, lower_tuple_match_arm,
      exTupArms, exTupMap, exDE, exDF, exEA, exEB, exFX, exFY, exFZ,
      alookup, optionOr, wrap_in_snapshots, sequenceExcept]
  ⟨hmem, claim_C7_snapshot_transparency exTupArms exTupMap none 2 0 [exDE, exDF]
    0 0 exEA (wrap_in_snapshots (Ty.base 10) 3) hmem⟩

end LowerMatch